import Mathlib

/-!
Verification development for the keti-tsn-cli schema-driven codec.

The definitions below are a shallow embedding of the JavaScript source:

* `src/tsc2cbor/lib/common/sid-resolver.js` (SID tree build, path and
  identity resolution, alias augmentation, multi-file merge),
* the input-loader part of `src/tsc2cbor/lib/transport/index.js`
  (cache validity, cache (de)serialization, `loadYangInputs`
  rebuild pipeline, vendor typedef merging),
* `src/lib/commands/fetch.js` (query selection for iFETCH).

JavaScript strings are embedded as `List Char` (`Str`), so that every
definition evaluates by kernel reduction on concrete inputs; `str`
converts a Lean string literal.  JavaScript `Map`s are embedded as
association lists (`List (k × v)`) whose `alSet` updates an existing key
in place and appends a fresh key, matching JS `Map.set` insertion-order
semantics; `Map.get` misses become `Option`.  JS `Set.has` becomes list
membership.  JS numbers holding SIDs and mtimes become `Int`.  Falsy
coercions (`x || null`, `if (bestMatch)`) are modelled explicitly.
-/

/-- The embedding of JavaScript strings. -/
abbrev Str := List Char

/-- Conversion from a Lean string literal to the embedding. -/
def str (s : String) : Str := s.data

/-- Association list lookup: first entry with the given key (JS `Map.get`,
`none` for `undefined`). -/
def alGet {α β : Type} [DecidableEq α] (m : List (α × β)) (k : α) : Option β :=
  match m with
  | [] => none
  | (k', v) :: rest => if k' = k then some v else alGet rest k

/-- Association list update: replace the value at an existing key in place,
else append (JS `Map.set` keeps insertion order). -/
def alSet {α β : Type} [DecidableEq α] (m : List (α × β)) (k : α) (v : β) :
    List (α × β) :=
  match m with
  | [] => [(k, v)]
  | (k', v') :: rest => if k' = k then (k, v) :: rest else (k', v') :: alSet rest k v

/-- JS `Map.has`. -/
def alHas {α β : Type} [DecidableEq α] (m : List (α × β)) (k : α) : Bool :=
  (alGet m k).isSome

theorem alGet_alSet_self {α β : Type} [DecidableEq α]
    (m : List (α × β)) (k : α) (v : β) : alGet (alSet m k v) k = some v := by
  induction m with
  | nil => simp [alSet, alGet]
  | cons hd tl ih =>
    obtain ⟨k', v'⟩ := hd
    by_cases h : k' = k
    · simp [alSet, alGet, h]
    · simp [alSet, alGet, h, ih]

theorem alGet_alSet_ne {α β : Type} [DecidableEq α]
    (m : List (α × β)) (k k' : α) (v : β) (h : k ≠ k') :
    alGet (alSet m k v) k' = alGet m k' := by
  induction m with
  | nil => simp [alSet, alGet, h]
  | cons hd tl ih =>
    obtain ⟨k0, v0⟩ := hd
    by_cases h0 : k0 = k
    · subst h0
      simp [alSet, alGet, h]
    · simp only [alSet, if_neg h0]
      by_cases h1 : k0 = k'
      · simp [alGet, h1]
      · simp [alGet, h1, ih]

theorem alHas_alSet {α β : Type} [DecidableEq α]
    (m : List (α × β)) (k k' : α) (v : β) (h : alHas m k' = true) :
    alHas (alSet m k v) k' = true := by
  by_cases hk : k = k'
  · subst hk; simp [alHas, alGet_alSet_self]
  · simpa [alHas, alGet_alSet_ne m k k' v hk] using h

theorem alGet_preserved_alSet {α β : Type} [DecidableEq α]
    (m : List (α × β)) (k k' : α) (v v' : β)
    (hmiss : alGet m k = none) (h : alGet m k' = some v') :
    alGet (alSet m k v) k' = some v' := by
  have hne : k ≠ k' := by
    intro he; rw [he] at hmiss; rw [hmiss] at h; exact Option.noConfusion h
  rw [alGet_alSet_ne m k k' v hne]; exact h

theorem alGet_mem {α β : Type} [DecidableEq α] {m : List (α × β)} {k : α} {v : β}
    (h : alGet m k = some v) : (k, v) ∈ m := by
  induction m with
  | nil => simp [alGet] at h
  | cons hd tl ih =>
    obtain ⟨k', v'⟩ := hd
    by_cases hk : k' = k
    · subst hk
      simp only [alGet, if_pos rfl] at h
      cases h
      exact List.mem_cons_self _ _
    · simp only [alGet, if_neg hk] at h
      exact List.mem_cons_of_mem _ (ih h)

theorem mem_alSet {α β : Type} [DecidableEq α] {m : List (α × β)} {k : α} {v : β}
    {e : α × β} (h : e ∈ alSet m k v) : e ∈ m ∨ e = (k, v) := by
  induction m with
  | nil => simpa [alSet] using h
  | cons hd tl ih =>
    obtain ⟨k', v'⟩ := hd
    by_cases hk : k' = k
    · simp only [alSet, if_pos hk] at h
      rcases List.mem_cons.mp h with h | h
      · exact Or.inr h
      · exact Or.inl (List.mem_cons_of_mem _ h)
    · simp only [alSet, if_neg hk] at h
      rcases List.mem_cons.mp h with h | h
      · exact Or.inl (h ▸ List.mem_cons_self _ _)
      · rcases ih h with h | h
        · exact Or.inl (List.mem_cons_of_mem _ h)
        · exact Or.inr h

theorem alHas_foldl_insert_mono {α β : Type} [DecidableEq α]
    (l : List (α × β)) (m : List (α × β)) (k : α) (h : alHas m k = true) :
    alHas (l.foldl (fun m (e : α × β) => alSet m e.1 e.2) m) k = true := by
  induction l generalizing m with
  | nil => exact h
  | cons hd tl ih => exact ih _ (alHas_alSet _ _ _ _ h)

theorem alHas_foldl_insert_of_mem {α β : Type} [DecidableEq α]
    (l : List (α × β)) (m : List (α × β)) (k : α) (v : β) (h : (k, v) ∈ l) :
    alHas (l.foldl (fun m (e : α × β) => alSet m e.1 e.2) m) k = true := by
  induction l generalizing m with
  | nil => cases h
  | cons hd tl ih =>
    rcases List.mem_cons.mp h with h | h
    · subst h
      exact alHas_foldl_insert_mono tl _ k (by simp [alHas, alGet_alSet_self])
    · exact ih _ h

/-! ## Segment and path helpers (sid-resolver.js) -/

/-- JS `String.prototype.split` with a one-character separator: `""`
splits to `[""]`, separators at the ends produce empty fields. -/
def splitOnChar (sep : Char) : Str → List Str
  | [] => [[]]
  | x :: xs =>
    match splitOnChar sep xs with
    | [] => [[]]
    | h :: t => if x = sep then [] :: h :: t else (x :: h) :: t

/-- JS `Array.prototype.join` with a one-character separator. -/
def joinChar (sep : Char) (parts : List Str) : Str :=
  List.intercalate [sep] parts

/-- JS `segment.includes(':') ? segment.split(':')[1] : segment`. -/
def segBare (seg : Str) : Str :=
  if ':' ∈ seg then ((splitOnChar ':' seg).drop 1).headD [] else seg

/-- `stripPrefixes` from sid-resolver.js: remove the module prefix from
every slash-separated segment. -/
def stripPrefixes (path : Str) : Str :=
  joinChar '/' ((splitOnChar '/' path).map segBare)

/-- JS `identifier.replace(/^\//, '')`: drop one leading slash. -/
def dropLeadSlash (s : Str) : Str :=
  match s with
  | c :: rest => if c = '/' then rest else s
  | [] => []

/-- Per-node record kept in `nodeInfo` (sid-resolver.js / input-loader). -/
structure NodeInfo where
  sid : Int
  parent : Option Int
  deltaSid : Int
  depth : Nat
  prefixedPath : Str
  deriving DecidableEq, Repr

/-- The SID tree of sid-resolver.js, with JS `Map`s as association lists
and the `_aliasesAugmented` sentinel as a `Bool` field. -/
structure SidTree where
  pathToSid : List (Str × Int) := []
  sidToPath : List (Int × Str) := []
  prefixedPathToSid : List (Str × Int) := []
  sidToPrefixedPath : List (Int × Str) := []
  pathToPrefixed : List (Str × Str) := []
  identityToSid : List (Str × Int) := []
  sidToIdentity : List (Int × Str) := []
  nodeInfo : List (Str × NodeInfo) := []
  leafToPaths : List (Str × List Str) := []
  aliasesAugmented : Bool := false
  deriving DecidableEq, Repr

/-- One item of a `.sid` file: `{sid, namespace, identifier}`. -/
structure SidItem where
  sid : Int
  ns : Str
  identifier : Str
  deriving DecidableEq, Repr

/-- JS `[...new Set([...a])]`: deduplicate keeping first occurrences. -/
def setDedup (l : List Str) : List Str :=
  l.foldl (fun acc x => if x ∈ acc then acc else acc ++ [x]) []

/-- The namespace default `item.namespace || 'data'`. -/
def psiNs (item : SidItem) : Str :=
  if item.ns = [] then str "data" else item.ns

/-- The `switch (namespace)` of `processSidItem`, producing the
`(yangPath, prefixedPath)` pair; the `data` case is also `default:`. -/
def psiPaths (item : SidItem) : Str × Option Str :=
  let ns := psiNs item
  let identifier := item.identifier
  if ns = str "module" then (identifier, none)
  else if ns = str "identity" then
    let identityName := segBare identifier
    (str "identity:" ++ identityName, some (str "identity:" ++ identifier))
  else if ns = str "feature" then
    let featureName := segBare identifier
    (str "feature:" ++ featureName, some (str "feature:" ++ identifier))
  else
    (stripPrefixes (dropLeadSlash identifier), some (dropLeadSlash identifier))

/-- The identity-branch side effect of `processSidItem`: populate both
identity bimaps (bare name and full identifier). -/
def psiIdentityStep (tree : SidTree) (item : SidItem) : SidTree :=
  if psiNs item = str "identity" then
    let identityName := segBare item.identifier
    { tree with
      identityToSid :=
        alSet (alSet tree.identityToSid identityName item.sid) item.identifier item.sid
      sidToIdentity := alSet tree.sidToIdentity item.sid identityName }
  else tree

/-- The `leafToPaths` indexing of `processSidItem` (only for namespace
`data` with a truthy path and leaf). -/
def psiLeafStep (tree : SidTree) (item : SidItem) : SidTree :=
  if psiNs item = str "data" ∧ (psiPaths item).1 ≠ [] then
    let yangPath := (psiPaths item).1
    let leaf := (splitOnChar '/' yangPath).getLastD []
    if leaf ≠ [] then
      { tree with
        leafToPaths :=
          alSet tree.leafToPaths leaf ((alGet tree.leafToPaths leaf).getD [] ++ [yangPath]) }
    else tree
  else tree

/-- The unconditional `pathToSid` / `sidToPath` stores of `processSidItem`. -/
def psiPathStep (tree : SidTree) (item : SidItem) : SidTree :=
  { tree with
    pathToSid := alSet tree.pathToSid (psiPaths item).1 item.sid
    sidToPath := alSet tree.sidToPath item.sid (psiPaths item).1 }

/-- The `if (prefixedPath)` stores of `processSidItem` (the empty string
is falsy in JS). -/
def psiPrefixedStep (tree : SidTree) (item : SidItem) : SidTree :=
  match (psiPaths item).2 with
  | some pp =>
    if pp ≠ [] then
      { tree with
        prefixedPathToSid := alSet tree.prefixedPathToSid pp item.sid
        sidToPrefixedPath := alSet tree.sidToPrefixedPath item.sid pp
        pathToPrefixed := alSet tree.pathToPrefixed (psiPaths item).1 pp }
    else tree
  | none => tree

/-- `processSidItem` from sid-resolver.js: the four mutation sections in
source order.  The `namespace` and `identifier` defaults
(`item.namespace || 'data'`, `item.identifier || ''`) live in `psiNs` /
`psiPaths`; the `data` branch is also the `default:` branch. -/
def processSidItem (tree : SidTree) (item : SidItem) : SidTree :=
  psiPrefixedStep (psiPathStep (psiLeafStep (psiIdentityStep tree item) item) item) item

/-- `buildSidTree` from sid-resolver.js, modulo file I/O: fold
`processSidItem` over the parsed `items` array into an empty tree. -/
def buildSidTreeModel (items : List SidItem) : SidTree :=
  items.foldl processSidItem {}

/-! ## resolvePathToSid (sid-resolver.js lines 156-213) -/

/-- JS `` contextPath ? `${contextPath}/${path}` : path ``. -/
def fullPathOf (contextPath path : Str) : Str :=
  if contextPath ≠ [] then contextPath ++ str "/" ++ path else path

/-- Length of the common leading-segment run (the candidate scoring loop). -/
def commonLead : List Str → List Str → Nat
  | c :: cs, d :: ds => if c = d then commonLead cs ds + 1 else 0
  | _, _ => 0

/-- Stripped context segments:
`stripPrefixes(contextPath).split('/').filter(Boolean)`. -/
def ctxSegs (contextPath : Str) : List Str :=
  (splitOnChar '/' (stripPrefixes contextPath)).filter (· ≠ [])

/-- Candidate score as the JS code computes it (an `Int`, compared against
the initial `highestScore = -1`). -/
def candScore (contextPath candidate : Str) : Int :=
  (commonLead (ctxSegs contextPath) (splitOnChar '/' candidate) : Int)

/-- The `bestMatch` selection loop: keep the first candidate scoring
strictly above the running maximum (initially `-1`). -/
def bestFold (contextPath : Str) (cands : List Str) :
    Option Str × Int :=
  cands.foldl
    (fun acc c =>
      if candScore contextPath c > acc.2 then (some c, candScore contextPath c) else acc)
    (none, -1)

/-- `resolvePathToSid` from sid-resolver.js.  Both `undefined` and `null`
returns are `none`; the JS truthiness test `if (bestMatch)` fails for the
empty string, which is modelled explicitly. -/
def resolvePathToSid (path : Str) (sidTree : SidTree) (contextPath : Str := []) :
    Option Int :=
  let fullPath := fullPathOf contextPath path
  if alHas sidTree.prefixedPathToSid fullPath then
    alGet sidTree.prefixedPathToSid fullPath
  else
    let fullPathStripped := stripPrefixes fullPath
    if alHas sidTree.pathToSid fullPathStripped then
      alGet sidTree.pathToSid fullPathStripped
    else
      let pathStripped := stripPrefixes path
      match alGet sidTree.leafToPaths pathStripped with
      | none => none
      | some candidatePaths =>
        if candidatePaths = [] then none
        else if candidatePaths.length = 1 then
          alGet sidTree.pathToSid (candidatePaths.headD [])
        else
          match bestFold contextPath candidatePaths with
          | (some bestMatch, _) =>
            if bestMatch ≠ [] then alGet sidTree.pathToSid bestMatch
            else alGet sidTree.pathToSid (candidatePaths.headD [])
          | (none, _) => alGet sidTree.pathToSid (candidatePaths.headD [])

/-- `resolveSidToPath` from sid-resolver.js (`get(...) || null`; a falsy
empty-string path collapses to `null`). -/
def resolveSidToPath (sid : Int) (sidTree : SidTree) : Option Str :=
  match alGet sidTree.sidToPath sid with
  | some p => if p = [] then none else some p
  | none => none

/-! ## Identity resolution (sid-resolver.js lines 331-348) -/

/-- JS `x || null` for an optional SID: a SID of `0` is falsy. -/
def jsNumOrNull (o : Option Int) : Option Int :=
  match o with
  | some v => if v = 0 then none else some v
  | none => none

/-- JS `x || null` for an optional string: `""` is falsy. -/
def jsStrOrNull (o : Option Str) : Option Str :=
  match o with
  | some s => if s = [] then none else some s
  | none => none

/-- `resolveIdentityToSid`: strip a `module:` prefix, then look up. -/
def resolveIdentityToSid (identityName : Str) (sidTree : SidTree) : Option Int :=
  let cleanName := segBare identityName
  jsNumOrNull (alGet sidTree.identityToSid cleanName)

/-- `resolveSidToIdentity`. -/
def resolveSidToIdentity (sid : Int) (sidTree : SidTree) : Option Str :=
  jsStrOrNull (alGet sidTree.sidToIdentity sid)

/-! ## Alias augmentation (sid-resolver.js lines 244-323) -/

/-- JS `normalize(name) || segment` applied to a segment: the bare form of
the segment, falling back to the segment itself when the bare form is
falsy (empty). -/
def bareOrSelf (seg : Str) : Str :=
  let b := segBare seg
  if b = [] then seg else b

/-- The `choiceNameSet` / `caseNameSet` construction: for every name add
the name itself (if truthy) and its bare form (if truthy).  Only
membership is ever used, so the JS `Set` is a list here. -/
def nameClosure : List Str → List Str
  | [] => []
  | n :: rest =>
    (if n = [] then [] else [n]) ++
    (if n = [] then [] else if segBare n = [] then [] else [segBare n]) ++
    nameClosure rest

/-- The `buildAlias` closure: drop segments matching the choice/case name
closures, collapse consecutive duplicates by bare name, and return the
alias only when non-empty and different from the original. -/
def buildAlias (choiceNameSet caseNameSet : List Str) (prefixedPath : Str) :
    Option Str :=
  if prefixedPath = [] then none
  else
    let segments := (splitOnChar '/' prefixedPath).filter (· ≠ [])
    let aliasSegments := segments.filter (fun segment =>
      let bare := bareOrSelf segment
      ¬(segment ∈ choiceNameSet ∨ bare ∈ choiceNameSet ∨
        segment ∈ caseNameSet ∨ bare ∈ caseNameSet))
    let deduped := aliasSegments.foldl (fun acc segment =>
      match acc.getLast? with
      | some last =>
        if last = segment ∨ bareOrSelf last = bareOrSelf segment then acc
        else acc ++ [segment]
      | none => acc ++ [segment]) []
    let aliasPath := joinChar '/' deduped
    if aliasPath ≠ [] ∧ aliasPath ≠ prefixedPath then some aliasPath else none

/-- The body of the `for (const [sid, canonicalPrefixed] of sidToPrefixedPath)`
loop: conditionally insert the alias into the three path maps. -/
def aliasInsert (aliasFn : Str → Option Str) (acc : SidTree)
    (entry : Int × Str) : SidTree :=
  match aliasFn entry.2 with
  | none => acc
  | some aliasPrefixed =>
    let acc :=
      if alHas acc.prefixedPathToSid aliasPrefixed then acc
      else { acc with prefixedPathToSid := alSet acc.prefixedPathToSid aliasPrefixed entry.1 }
    let aliasStripped := stripPrefixes aliasPrefixed
    match alGet acc.pathToSid aliasStripped with
    | none =>
      { acc with
        pathToSid := alSet acc.pathToSid aliasStripped entry.1
        pathToPrefixed := alSet acc.pathToPrefixed aliasStripped aliasPrefixed }
    | some _ => acc

/-- `augmentSidTreeWithAliases` from sid-resolver.js: iterate the original
`sidToPrefixedPath` entries, inserting aliases, then set the sentinel. -/
def augmentSidTreeWithAliases (sidTree : SidTree)
    (choiceNames : List Str := []) (caseNames : List Str := []) : SidTree :=
  if sidTree.aliasesAugmented then sidTree
  else
    let choiceNameSet := nameClosure choiceNames
    let caseNameSet := nameClosure caseNames
    let t := sidTree.sidToPrefixedPath.foldl
      (aliasInsert (buildAlias choiceNameSet caseNameSet)) sidTree
    { t with aliasesAugmented := true }

/-! ## Merging and nodeInfo recomputation
(sid-resolver.js `loadMultipleSidFiles`, input-loader `loadYangInputs`) -/

/-- Merge one per-file tree into the accumulator (the common body of both
merge loops).  When `withNodeInfo` is true the `nodeInfo` entries are also
merged (`loadMultipleSidFiles` does, `loadYangInputs` does not). -/
def mergeOneTree (withNodeInfo : Bool) (acc tree : SidTree) : SidTree :=
  let acc := { acc with
    pathToSid :=
      tree.pathToSid.foldl (fun m (e : Str × Int) => alSet m e.1 e.2) acc.pathToSid
    sidToPath :=
      tree.sidToPath.foldl (fun m (e : Int × Str) => alSet m e.1 e.2) acc.sidToPath
    prefixedPathToSid :=
      tree.prefixedPathToSid.foldl (fun m (e : Str × Int) => alSet m e.1 e.2)
        acc.prefixedPathToSid
    sidToPrefixedPath :=
      tree.sidToPrefixedPath.foldl (fun m (e : Int × Str) => alSet m e.1 e.2)
        acc.sidToPrefixedPath
    pathToPrefixed :=
      tree.pathToPrefixed.foldl (fun m (e : Str × Str) => alSet m e.1 e.2)
        acc.pathToPrefixed
    identityToSid :=
      tree.identityToSid.foldl (fun m (e : Str × Int) => alSet m e.1 e.2) acc.identityToSid
    sidToIdentity :=
      tree.sidToIdentity.foldl (fun m (e : Int × Str) => alSet m e.1 e.2) acc.sidToIdentity }
  let acc :=
    if withNodeInfo then
      { acc with
        nodeInfo :=
          tree.nodeInfo.foldl (fun m (e : Str × NodeInfo) => alSet m e.1 e.2) acc.nodeInfo }
    else acc
  { acc with
    leafToPaths := tree.leafToPaths.foldl
      (fun m (e : Str × List Str) => alSet m e.1 (setDedup ((alGet m e.1).getD [] ++ e.2)))
      acc.leafToPaths }

/-- `path.split('/').filter(p => p)`. -/
def pathParts (path : Str) : List Str :=
  (splitOnChar '/' path).filter (· ≠ [])

/-- The ancestor path made of the first `i` parts. -/
def joinTake (parts : List Str) (i : Nat) : Str :=
  joinChar '/' (parts.take i)

/-- The parent-search loop `for (let i = parts.length - 1; i > 0; i--)`,
trying `k, k-1, …, 1`. -/
def scanAncestors (pathToSid : List (Str × Int)) (parts : List Str) :
    Nat → Option Int
  | 0 => none
  | i + 1 =>
    match alGet pathToSid (joinTake parts (i + 1)) with
    | some s => some s
    | none => scanAncestors pathToSid parts i

/-- Parent SID: the longest proper segment-prefix present in `pathToSid`. -/
def findParent (pathToSid : List (Str × Int)) (parts : List Str) : Option Int :=
  scanAncestors pathToSid parts (parts.length - 1)

/-- JS `a || b` on an optional string with falsy `""`. -/
def jsStrOr (a : Option Str) (b : Str) : Str :=
  match a with
  | some s => if s = [] then b else s
  | none => b

/-- The `nodeInfo` recomputation loop shared by `loadMultipleSidFiles`
(sid-resolver.js lines 467-492) and `loadYangInputs` Step 3
(input-loader lines 340-365): walk every non-synthetic `pathToSid` entry,
find its parent, and store the Delta-SID record. -/
def recalcNodeInfo (t : SidTree) : SidTree :=
  { t with
    nodeInfo := t.pathToSid.foldl (fun ni (e : Str × Int) =>
      if (str "identity:").isPrefixOf e.1 ∨ (str "feature:").isPrefixOf e.1 then ni
      else
        let parts := pathParts e.1
        let parent := findParent t.pathToSid parts
        alSet ni e.1
          { sid := e.2
            parent := parent
            deltaSid := match parent with | some p => e.2 - p | none => e.2
            depth := parts.length
            prefixedPath :=
              jsStrOr (alGet t.pathToPrefixed e.1)
                (jsStrOr (alGet t.sidToPrefixedPath e.2) e.1) }) t.nodeInfo }

/-- `loadMultipleSidFiles` (sid-resolver.js), modulo file I/O: merge the
per-file trees (including their `nodeInfo`) and recompute parents. -/
def loadMultipleSidFilesTree (trees : List SidTree) : SidTree :=
  recalcNodeInfo (trees.foldl (mergeOneTree true) {})

/-- The SID-tree part of the `loadYangInputs` rebuild path (input-loader
Steps 2, 3 and 7): merge per-file trees (without `nodeInfo`), recompute
parents, then augment with choice/case aliases. -/
def loadYangInputsSidTree (trees : List SidTree)
    (choiceNames caseNames : List Str) : SidTree :=
  augmentSidTreeWithAliases
    (recalcNodeInfo (trees.foldl (mergeOneTree false) {}))
    choiceNames caseNames

/-! ## Field characterizations of `processSidItem` -/

theorem psiIdentityStep_fields (tree : SidTree) (item : SidItem) :
    (psiIdentityStep tree item).pathToSid = tree.pathToSid ∧
    (psiIdentityStep tree item).sidToPath = tree.sidToPath ∧
    (psiIdentityStep tree item).prefixedPathToSid = tree.prefixedPathToSid ∧
    (psiIdentityStep tree item).sidToPrefixedPath = tree.sidToPrefixedPath ∧
    (psiIdentityStep tree item).pathToPrefixed = tree.pathToPrefixed ∧
    (psiIdentityStep tree item).nodeInfo = tree.nodeInfo ∧
    (psiIdentityStep tree item).leafToPaths = tree.leafToPaths ∧
    (psiIdentityStep tree item).aliasesAugmented = tree.aliasesAugmented := by
  unfold psiIdentityStep
  split <;> exact ⟨rfl, rfl, rfl, rfl, rfl, rfl, rfl, rfl⟩

theorem psiLeafStep_fields (tree : SidTree) (item : SidItem) :
    (psiLeafStep tree item).pathToSid = tree.pathToSid ∧
    (psiLeafStep tree item).sidToPath = tree.sidToPath ∧
    (psiLeafStep tree item).prefixedPathToSid = tree.prefixedPathToSid ∧
    (psiLeafStep tree item).sidToPrefixedPath = tree.sidToPrefixedPath ∧
    (psiLeafStep tree item).pathToPrefixed = tree.pathToPrefixed ∧
    (psiLeafStep tree item).nodeInfo = tree.nodeInfo ∧
    (psiLeafStep tree item).identityToSid = tree.identityToSid ∧
    (psiLeafStep tree item).sidToIdentity = tree.sidToIdentity ∧
    (psiLeafStep tree item).aliasesAugmented = tree.aliasesAugmented := by
  simp only [psiLeafStep]
  repeat' split
  all_goals exact ⟨rfl, rfl, rfl, rfl, rfl, rfl, rfl, rfl, rfl⟩

theorem psiLeafStep_leafToPaths (tree : SidTree) (item : SidItem) :
    (psiLeafStep tree item).leafToPaths = tree.leafToPaths ∨
    ∃ leaf, (psiPaths item).1 ≠ [] ∧
      (psiLeafStep tree item).leafToPaths =
        alSet tree.leafToPaths leaf
          ((alGet tree.leafToPaths leaf).getD [] ++ [(psiPaths item).1]) := by
  simp only [psiLeafStep]
  repeat' split
  · rename_i h _
    exact Or.inr ⟨_, h.2, rfl⟩
  · exact Or.inl rfl
  · exact Or.inl rfl

theorem psiPathStep_fields (tree : SidTree) (item : SidItem) :
    (psiPathStep tree item).pathToSid = alSet tree.pathToSid (psiPaths item).1 item.sid ∧
    (psiPathStep tree item).sidToPath = alSet tree.sidToPath item.sid (psiPaths item).1 ∧
    (psiPathStep tree item).prefixedPathToSid = tree.prefixedPathToSid ∧
    (psiPathStep tree item).sidToPrefixedPath = tree.sidToPrefixedPath ∧
    (psiPathStep tree item).pathToPrefixed = tree.pathToPrefixed ∧
    (psiPathStep tree item).nodeInfo = tree.nodeInfo ∧
    (psiPathStep tree item).identityToSid = tree.identityToSid ∧
    (psiPathStep tree item).sidToIdentity = tree.sidToIdentity ∧
    (psiPathStep tree item).leafToPaths = tree.leafToPaths ∧
    (psiPathStep tree item).aliasesAugmented = tree.aliasesAugmented :=
  ⟨rfl, rfl, rfl, rfl, rfl, rfl, rfl, rfl, rfl, rfl⟩

theorem psiPrefixedStep_fields (tree : SidTree) (item : SidItem) :
    (psiPrefixedStep tree item).pathToSid = tree.pathToSid ∧
    (psiPrefixedStep tree item).sidToPath = tree.sidToPath ∧
    (psiPrefixedStep tree item).nodeInfo = tree.nodeInfo ∧
    (psiPrefixedStep tree item).identityToSid = tree.identityToSid ∧
    (psiPrefixedStep tree item).sidToIdentity = tree.sidToIdentity ∧
    (psiPrefixedStep tree item).leafToPaths = tree.leafToPaths ∧
    (psiPrefixedStep tree item).aliasesAugmented = tree.aliasesAugmented := by
  unfold psiPrefixedStep
  repeat' split
  all_goals exact ⟨rfl, rfl, rfl, rfl, rfl, rfl, rfl⟩

theorem processSidItem_pathToSid (tree : SidTree) (item : SidItem) :
    (processSidItem tree item).pathToSid =
      alSet tree.pathToSid (psiPaths item).1 item.sid := by
  unfold processSidItem
  rw [(psiPrefixedStep_fields _ _).1, (psiPathStep_fields _ _).1,
    (psiLeafStep_fields _ _).1, (psiIdentityStep_fields _ _).1]

theorem processSidItem_nodeInfo (tree : SidTree) (item : SidItem) :
    (processSidItem tree item).nodeInfo = tree.nodeInfo := by
  unfold processSidItem
  rw [(psiPrefixedStep_fields _ _).2.2.1, (psiPathStep_fields _ _).2.2.2.2.2.1,
    (psiLeafStep_fields _ _).2.2.2.2.2.1, (psiIdentityStep_fields _ _).2.2.2.2.2.1]

theorem processSidItem_leafToPaths (tree : SidTree) (item : SidItem) :
    (processSidItem tree item).leafToPaths = tree.leafToPaths ∨
    ∃ leaf, (psiPaths item).1 ≠ [] ∧
      (processSidItem tree item).leafToPaths =
        alSet tree.leafToPaths leaf
          ((alGet tree.leafToPaths leaf).getD [] ++ [(psiPaths item).1]) := by
  unfold processSidItem
  rw [(psiPrefixedStep_fields _ _).2.2.2.2.2.1, (psiPathStep_fields _ _).2.2.2.2.2.2.2.2.1]
  rcases psiLeafStep_leafToPaths (psiIdentityStep tree item) item with h | ⟨leaf, hne, h⟩
  · rw [h, (psiIdentityStep_fields _ _).2.2.2.2.2.2.1]
    exact Or.inl rfl
  · rw [h, (psiIdentityStep_fields _ _).2.2.2.2.2.2.1]
    exact Or.inr ⟨leaf, hne, rfl⟩

/-! ## The leaf-index invariant

Every tree the program builds keeps `leafToPaths` consistent with
`pathToSid`: every indexed candidate path is a non-empty key of
`pathToSid`.  `buildSidTree` pushes a candidate only in the `data` branch
(where the same `yangPath` is then stored in `pathToSid`), and merging /
recomputation / augmentation only ever grow `pathToSid`. -/

def leafIndexWF (t : SidTree) : Prop :=
  ∀ e ∈ t.leafToPaths, ∀ p ∈ e.2, p ≠ [] ∧ alHas t.pathToSid p = true

theorem leafIndexWF_empty : leafIndexWF {} := by
  intro e he
  cases he

theorem mem_setDedup {x : Str} {l : List Str} (h : x ∈ setDedup l) : x ∈ l := by
  have aux : ∀ (l acc : List Str),
      x ∈ l.foldl (fun acc y => if y ∈ acc then acc else acc ++ [y]) acc →
      x ∈ acc ∨ x ∈ l := by
    intro l
    induction l with
    | nil => intro acc h; exact Or.inl h
    | cons hd tl ih =>
      intro acc h
      rcases ih _ h with h' | h'
      · by_cases hc : hd ∈ acc
        · simp only [if_pos hc] at h'
          exact Or.inl h'
        · simp only [if_neg hc, List.mem_append, List.mem_singleton] at h'
          rcases h' with h' | h'
          · exact Or.inl h'
          · exact Or.inr (h' ▸ List.mem_cons_self _ _)
      · exact Or.inr (List.mem_cons_of_mem _ h')
  rcases aux l [] h with h' | h'
  · cases h'
  · exact h'

theorem leafIndexWF_processSidItem (t : SidTree) (item : SidItem)
    (h : leafIndexWF t) : leafIndexWF (processSidItem t item) := by
  intro e he p hp
  rw [processSidItem_pathToSid]
  rcases processSidItem_leafToPaths t item with hl | ⟨leaf, hne, hl⟩
  · rw [hl] at he
    obtain ⟨hp1, hp2⟩ := h e he p hp
    exact ⟨hp1, alHas_alSet _ _ _ _ hp2⟩
  · rw [hl] at he
    rcases mem_alSet he with he' | he'
    · obtain ⟨hp1, hp2⟩ := h e he' p hp
      exact ⟨hp1, alHas_alSet _ _ _ _ hp2⟩
    · subst he'
      simp only at hp
      rcases List.mem_append.mp hp with hp' | hp'
      · have hmem : ((alGet t.leafToPaths leaf).getD []) = [] ∨
            alGet t.leafToPaths leaf = some ((alGet t.leafToPaths leaf).getD []) := by
          cases halg : alGet t.leafToPaths leaf with
          | none => exact Or.inl (by simp [halg])
          | some v => exact Or.inr (by simp [halg])
        rcases hmem with hmem | hmem
        · rw [hmem] at hp'
          cases hp'
        · obtain ⟨hp1, hp2⟩ := h _ (alGet_mem hmem) p hp'
          exact ⟨hp1, alHas_alSet _ _ _ _ hp2⟩
      · rw [List.mem_singleton.mp hp']
        exact ⟨hne, by simp [alHas, alGet_alSet_self]⟩

theorem leafIndexWF_buildSidTreeModel (items : List SidItem) :
    leafIndexWF (buildSidTreeModel items) := by
  have aux : ∀ (l : List SidItem) (t : SidTree), leafIndexWF t →
      leafIndexWF (l.foldl processSidItem t) := by
    intro l
    induction l with
    | nil => intro t ht; exact ht
    | cons hd tl ih => intro t ht; exact ih _ (leafIndexWF_processSidItem t hd ht)
  exact aux items {} leafIndexWF_empty

theorem mergeOneTree_pathToSid (w : Bool) (acc tree : SidTree) :
    (mergeOneTree w acc tree).pathToSid =
      tree.pathToSid.foldl (fun m (e : Str × Int) => alSet m e.1 e.2) acc.pathToSid := by
  simp only [mergeOneTree]
  split <;> rfl

theorem mergeOneTree_leafToPaths (w : Bool) (acc tree : SidTree) :
    (mergeOneTree w acc tree).leafToPaths =
      tree.leafToPaths.foldl
        (fun m (e : Str × List Str) =>
          alSet m e.1 (setDedup ((alGet m e.1).getD [] ++ e.2)))
        acc.leafToPaths := by
  simp only [mergeOneTree]
  split <;> rfl

theorem leafFold_inv (R : Str → Prop) (l : List (Str × List Str))
    (m0 : List (Str × List Str))
    (hm : ∀ e ∈ m0, ∀ p ∈ e.2, R p) (hl : ∀ e ∈ l, ∀ p ∈ e.2, R p) :
    ∀ e ∈ l.foldl
        (fun m (e : Str × List Str) =>
          alSet m e.1 (setDedup ((alGet m e.1).getD [] ++ e.2)))
        m0, ∀ p ∈ e.2, R p := by
  induction l generalizing m0 with
  | nil => exact hm
  | cons hd tl ih =>
    refine ih _ ?_ (fun e he => hl e (List.mem_cons_of_mem _ he))
    intro e he p hp
    rcases mem_alSet he with he' | he'
    · exact hm e he' p hp
    · subst he'
      simp only at hp
      rcases List.mem_append.mp (mem_setDedup hp) with hp' | hp'
      · cases halg : alGet m0 hd.1 with
        | none => rw [halg] at hp'; cases hp'
        | some v =>
          rw [halg] at hp'
          exact hm _ (alGet_mem halg) p hp'
      · exact hl hd (List.mem_cons_self _ _) p hp'

theorem leafIndexWF_mergeOneTree (w : Bool) (acc tree : SidTree)
    (ha : leafIndexWF acc) (ht : leafIndexWF tree) :
    leafIndexWF (mergeOneTree w acc tree) := by
  intro e he p hp
  rw [mergeOneTree_leafToPaths] at he
  rw [mergeOneTree_pathToSid]
  have key := leafFold_inv
    (fun p => p ≠ [] ∧ (alHas acc.pathToSid p = true ∨ alHas tree.pathToSid p = true))
    tree.leafToPaths acc.leafToPaths
    (fun e he' p hp' => ⟨(ha e he' p hp').1, Or.inl (ha e he' p hp').2⟩)
    (fun e he' p hp' => ⟨(ht e he' p hp').1, Or.inr (ht e he' p hp').2⟩)
    e he p hp
  refine ⟨key.1, ?_⟩
  rcases key.2 with h | h
  · exact alHas_foldl_insert_mono _ _ _ h
  · obtain ⟨v, hv⟩ := Option.isSome_iff_exists.mp h
    exact alHas_foldl_insert_of_mem _ _ _ v (alGet_mem hv)

theorem recalcNodeInfo_pathToSid (t : SidTree) :
    (recalcNodeInfo t).pathToSid = t.pathToSid := rfl

theorem recalcNodeInfo_leafToPaths (t : SidTree) :
    (recalcNodeInfo t).leafToPaths = t.leafToPaths := rfl

theorem leafIndexWF_recalcNodeInfo (t : SidTree) (h : leafIndexWF t) :
    leafIndexWF (recalcNodeInfo t) := h

theorem aliasInsert_frame (f : Str → Option Str) (acc : SidTree) (e : Int × Str) :
    (aliasInsert f acc e).sidToPath = acc.sidToPath ∧
    (aliasInsert f acc e).sidToPrefixedPath = acc.sidToPrefixedPath ∧
    (aliasInsert f acc e).identityToSid = acc.identityToSid ∧
    (aliasInsert f acc e).sidToIdentity = acc.sidToIdentity ∧
    (aliasInsert f acc e).nodeInfo = acc.nodeInfo ∧
    (aliasInsert f acc e).leafToPaths = acc.leafToPaths ∧
    (aliasInsert f acc e).aliasesAugmented = acc.aliasesAugmented := by
  simp only [aliasInsert]
  repeat' split
  all_goals exact ⟨rfl, rfl, rfl, rfl, rfl, rfl, rfl⟩

theorem aliasInsert_pathToSid_mono (f : Str → Option Str) (acc : SidTree)
    (e : Int × Str) (p : Str) (h : alHas acc.pathToSid p = true) :
    alHas (aliasInsert f acc e).pathToSid p = true := by
  simp only [aliasInsert]
  repeat' split
  all_goals first
    | exact h
    | exact alHas_alSet _ _ _ _ h

theorem foldl_aliasInsert_leafToPaths (f : Str → Option Str)
    (l : List (Int × Str)) (acc : SidTree) :
    (l.foldl (aliasInsert f) acc).leafToPaths = acc.leafToPaths := by
  induction l generalizing acc with
  | nil => rfl
  | cons hd tl ih =>
    rw [List.foldl_cons, ih, (aliasInsert_frame f acc hd).2.2.2.2.2.1]

theorem foldl_aliasInsert_pathToSid_mono (f : Str → Option Str)
    (l : List (Int × Str)) (acc : SidTree) (p : Str)
    (h : alHas acc.pathToSid p = true) :
    alHas ((l.foldl (aliasInsert f) acc)).pathToSid p = true := by
  induction l generalizing acc with
  | nil => exact h
  | cons hd tl ih =>
    exact ih _ (aliasInsert_pathToSid_mono f acc hd p h)

theorem leafIndexWF_augment (t : SidTree) (ch ca : List Str)
    (h : leafIndexWF t) : leafIndexWF (augmentSidTreeWithAliases t ch ca) := by
  unfold augmentSidTreeWithAliases
  split
  · exact h
  · intro e he p hp
    simp only [foldl_aliasInsert_leafToPaths] at he
    obtain ⟨h1, h2⟩ := h e he p hp
    exact ⟨h1, foldl_aliasInsert_pathToSid_mono _ _ _ _ h2⟩

theorem leafIndexWF_foldl_merge (w : Bool) (l : List SidTree) (acc : SidTree)
    (hacc : leafIndexWF acc) (hl : ∀ t ∈ l, leafIndexWF t) :
    leafIndexWF (l.foldl (mergeOneTree w) acc) := by
  induction l generalizing acc with
  | nil => exact hacc
  | cons hd tl ih =>
    exact ih _ (leafIndexWF_mergeOneTree w acc hd hacc (hl hd (List.mem_cons_self _ _)))
      (fun t ht => hl t (List.mem_cons_of_mem _ ht))

theorem leafIndexWF_loadMultipleSidFilesTree (trees : List SidTree)
    (h : ∀ t ∈ trees, leafIndexWF t) :
    leafIndexWF (loadMultipleSidFilesTree trees) :=
  leafIndexWF_recalcNodeInfo _ (leafIndexWF_foldl_merge true trees {} leafIndexWF_empty h)

theorem leafIndexWF_loadYangInputsSidTree (trees : List SidTree)
    (ch ca : List Str) (h : ∀ t ∈ trees, leafIndexWF t) :
    leafIndexWF (loadYangInputsSidTree trees ch ca) :=
  leafIndexWF_augment _ ch ca
    (leafIndexWF_recalcNodeInfo _ (leafIndexWF_foldl_merge false trees {} leafIndexWF_empty h))

/-! ## Characterizing the fuzzy best-match selection -/

theorem candScore_nonneg (ctx c : Str) : 0 ≤ candScore ctx c :=
  Int.natCast_nonneg _

theorem bestFold_cons (ctx c : Str) (rest : List Str) :
    bestFold ctx (c :: rest) =
      rest.foldl
        (fun acc x => if candScore ctx x > acc.2 then (some x, candScore ctx x) else acc)
        (some c, candScore ctx c) := by
  unfold bestFold
  rw [List.foldl_cons]
  have h : candScore ctx c > ((none : Option Str), (-1 : Int)).2 :=
    lt_of_lt_of_le (by norm_num) (candScore_nonneg ctx c)
  rw [if_pos h]

theorem bestFoldAux (ctx : Str) (l : List Str) (b : Str) :
    ∃ pre b' post,
      b :: l = pre ++ b' :: post ∧
      l.foldl
        (fun acc x => if candScore ctx x > acc.2 then (some x, candScore ctx x) else acc)
        (some b, candScore ctx b) = (some b', candScore ctx b') ∧
      (∀ c ∈ b :: l, candScore ctx c ≤ candScore ctx b') ∧
      (∀ c ∈ pre, candScore ctx c < candScore ctx b') := by
  induction l generalizing b with
  | nil =>
    refine ⟨[], b, [], rfl, rfl, ?_, fun c hc => absurd hc (List.not_mem_nil c)⟩
    intro c hc
    rw [show c = b by simpa using hc]
  | cons x rest ih =>
    rw [List.foldl_cons]
    by_cases hx : candScore ctx x > candScore ctx b
    · rw [if_pos hx]
      obtain ⟨pre, b', post, hsplit, hfold, hmax, hpre⟩ := ih x
      have hxb' : candScore ctx x ≤ candScore ctx b' := hmax x (List.mem_cons_self _ _)
      refine ⟨b :: pre, b', post, ?_, hfold, ?_, ?_⟩
      · rw [List.cons_append, ← hsplit]
      · intro c hc
        rcases List.mem_cons.mp hc with hc | hc
        · rw [hc]; exact le_of_lt (lt_of_lt_of_le hx hxb')
        · exact hmax c hc
      · intro c hc
        rcases List.mem_cons.mp hc with hc | hc
        · rw [hc]; exact lt_of_lt_of_le hx hxb'
        · exact hpre c hc
    · rw [if_neg hx]
      have hxb : candScore ctx x ≤ candScore ctx b := le_of_not_lt hx
      obtain ⟨pre, b', post, hsplit, hfold, hmax, hpre⟩ := ih b
      cases pre with
      | nil =>
        simp only [List.nil_append] at hsplit
        obtain ⟨hb', hpost⟩ := List.cons_eq_cons.mp hsplit
        subst hb'
        refine ⟨[], b, x :: rest, rfl, hfold, ?_,
          fun c hc => absurd hc (List.not_mem_nil c)⟩
        intro c hc
        rcases List.mem_cons.mp hc with hc | hc
        · rw [hc]
        · rcases List.mem_cons.mp hc with hc' | hc'
          · rw [hc']; exact hxb
          · exact hmax c (List.mem_cons_of_mem _ hc')
      | cons p0 pre' =>
        rw [List.cons_append] at hsplit
        obtain ⟨hp0, hrest⟩ := List.cons_eq_cons.mp hsplit
        subst hp0
        have hbpre : candScore ctx b < candScore ctx b' := hpre b (List.mem_cons_self _ _)
        refine ⟨b :: x :: pre', b', post, ?_, hfold, ?_, ?_⟩
        · rw [show b :: x :: pre' ++ b' :: post = b :: x :: (pre' ++ b' :: post) from rfl,
            ← hrest]
        · intro c hc
          rcases List.mem_cons.mp hc with hc | hc
          · rw [hc]; exact hmax b (List.mem_cons_self _ _)
          · rcases List.mem_cons.mp hc with hc' | hc'
            · rw [hc']; exact le_trans hxb (hmax b (List.mem_cons_self _ _))
            · exact hmax c (List.mem_cons_of_mem _ (hrest ▸ hc'))
        · intro c hc
          rcases List.mem_cons.mp hc with hc | hc
          · rw [hc]; exact hbpre
          · rcases List.mem_cons.mp hc with hc' | hc'
            · rw [hc']; exact lt_of_le_of_lt hxb hbpre
            · exact hpre c (List.mem_cons_of_mem _ hc')

theorem bestFold_split (ctx c : Str) (rest : List Str) :
    ∃ pre b post,
      c :: rest = pre ++ b :: post ∧
      bestFold ctx (c :: rest) = (some b, candScore ctx b) ∧
      (∀ d ∈ c :: rest, candScore ctx d ≤ candScore ctx b) ∧
      (∀ d ∈ pre, candScore ctx d < candScore ctx b) := by
  rw [bestFold_cons]
  exact bestFoldAux ctx rest c

theorem commonLead_nil (l : List Str) : commonLead [] l = 0 := by
  cases l <;> rfl

theorem resolve_direct_prefixed (t : SidTree) (p ctx : Str) (s : Int)
    (h : alGet t.prefixedPathToSid (fullPathOf ctx p) = some s) :
    resolvePathToSid p t ctx = some s := by
  simp [resolvePathToSid, alHas, h]

theorem resolve_direct_stripped (t : SidTree) (p ctx : Str) (s : Int)
    (h1 : alGet t.prefixedPathToSid (fullPathOf ctx p) = none)
    (h2 : alGet t.pathToSid (stripPrefixes (fullPathOf ctx p)) = some s) :
    resolvePathToSid p t ctx = some s := by
  simp [resolvePathToSid, alHas, h1, h2]

theorem resolve_fuzzy_none (t : SidTree) (p ctx : Str)
    (h1 : alGet t.prefixedPathToSid (fullPathOf ctx p) = none)
    (h2 : alGet t.pathToSid (stripPrefixes (fullPathOf ctx p)) = none)
    (h3 : (alGet t.leafToPaths (stripPrefixes p)).getD [] = []) :
    resolvePathToSid p t ctx = none := by
  cases hlf : alGet t.leafToPaths (stripPrefixes p) with
  | none => simp [resolvePathToSid, alHas, h1, h2, hlf]
  | some cands =>
    rw [hlf] at h3
    simp only [Option.getD_some] at h3
    subst h3
    simp [resolvePathToSid, alHas, h1, h2, hlf]

theorem resolve_fuzzy_single (t : SidTree) (p ctx c : Str)
    (h1 : alGet t.prefixedPathToSid (fullPathOf ctx p) = none)
    (h2 : alGet t.pathToSid (stripPrefixes (fullPathOf ctx p)) = none)
    (h3 : alGet t.leafToPaths (stripPrefixes p) = some [c]) :
    resolvePathToSid p t ctx = alGet t.pathToSid c := by
  simp [resolvePathToSid, alHas, h1, h2, h3]

theorem resolve_fuzzy_multi (t : SidTree) (p ctx c c2 : Str) (rest : List Str)
    (h1 : alGet t.prefixedPathToSid (fullPathOf ctx p) = none)
    (h2 : alGet t.pathToSid (stripPrefixes (fullPathOf ctx p)) = none)
    (h3 : alGet t.leafToPaths (stripPrefixes p) = some (c :: c2 :: rest))
    (hwf : ∀ q ∈ c :: c2 :: rest, q ≠ [] ∧ alHas t.pathToSid q = true) :
    ∃ pre b post,
      c :: c2 :: rest = pre ++ b :: post ∧
      resolvePathToSid p t ctx = alGet t.pathToSid b ∧
      (∃ s, alGet t.pathToSid b = some s) ∧
      (∀ d ∈ c :: c2 :: rest, candScore ctx d ≤ candScore ctx b) ∧
      (∀ d ∈ pre, candScore ctx d < candScore ctx b) ∧
      (ctxSegs ctx = [] → b = c) := by
  obtain ⟨pre, b, post, hsplit, hbf, hmax, hpre⟩ := bestFold_split ctx c (c2 :: rest)
  have hbmem : b ∈ c :: c2 :: rest := by
    rw [hsplit]
    exact List.mem_append_right _ (List.mem_cons_self _ _)
  obtain ⟨hbne, hbhas⟩ := hwf b hbmem
  obtain ⟨s, hs⟩ := Option.isSome_iff_exists.mp hbhas
  refine ⟨pre, b, post, hsplit, ?_, ⟨s, hs⟩, hmax, hpre, ?_⟩
  · simp [resolvePathToSid, alHas, h1, h2, h3, hbf, hbne]
  · intro hctx
    have hz : ∀ d, candScore ctx d = 0 := by
      intro d
      simp [candScore, hctx, commonLead_nil]
    cases pre with
    | nil => exact ((List.cons_eq_cons.mp hsplit).1).symm
    | cons q qre =>
      exfalso
      have := hpre q (List.mem_cons_self _ _)
      rw [hz q, hz b] at this
      exact lt_irrefl 0 this

theorem resolve_none_iff (t : SidTree) (p ctx : Str) (hwf : leafIndexWF t) :
    resolvePathToSid p t ctx = none ↔
      (alGet t.prefixedPathToSid (fullPathOf ctx p) = none ∧
       alGet t.pathToSid (stripPrefixes (fullPathOf ctx p)) = none ∧
       (alGet t.leafToPaths (stripPrefixes p)).getD [] = []) := by
  cases hpf : alGet t.prefixedPathToSid (fullPathOf ctx p) with
  | some s => simp [resolve_direct_prefixed t p ctx s hpf, hpf]
  | none =>
    cases hst : alGet t.pathToSid (stripPrefixes (fullPathOf ctx p)) with
    | some s => simp [resolve_direct_stripped t p ctx s hpf hst, hst]
    | none =>
      cases hlf : alGet t.leafToPaths (stripPrefixes p) with
      | none =>
        simp only [hlf, Option.getD_none]
        simp [resolve_fuzzy_none t p ctx hpf hst (by rw [hlf]; rfl), hpf, hst]
      | some cands =>
        cases cands with
        | nil =>
          simp only [hlf, Option.getD_some]
          simp [resolve_fuzzy_none t p ctx hpf hst (by rw [hlf]; rfl), hpf, hst]
        | cons c restc =>
          have hwfc : ∀ q ∈ c :: restc, q ≠ [] ∧ alHas t.pathToSid q = true :=
            hwf _ (alGet_mem hlf)
          cases restc with
          | nil =>
            have heq := resolve_fuzzy_single t p ctx c hpf hst hlf
            obtain ⟨s, hs⟩ :=
              Option.isSome_iff_exists.mp (hwfc c (List.mem_cons_self _ _)).2
            rw [heq, hs]
            simp [hlf]
          | cons c2 rest2 =>
            obtain ⟨pre, b, post, hsplit, hres, ⟨s, hs⟩, hmax, hpre, hempty⟩ :=
              resolve_fuzzy_multi t p ctx c c2 rest2 hpf hst hlf hwfc
            rw [hres, hs]
            simp [hlf]

/-! ## Claim C2 -/

/-- C2: `resolvePathToSid` attempts, in order, (1) the prefixed direct
lookup of the concatenated full path, (2) the stripped direct lookup,
(3) the fuzzy lookup of the stripped last segment in `leafToPaths`; it
produces no SID exactly when all three miss, i.e. when `leafToPaths`
holds no candidate (given the direct misses) — provided the tree's
`leafToPaths` index lists only non-empty keys of `pathToSid`.  That
invariant holds for every tree the program builds: conjuncts 4-6 prove
it for `buildSidTree`, the `loadYangInputs` rebuild pipeline, and
`loadMultipleSidFiles`. -/
theorem claim_C2_resolution_cascade :
    (∀ (t : SidTree) (p ctx : Str) (s : Int),
      alGet t.prefixedPathToSid (fullPathOf ctx p) = some s →
      resolvePathToSid p t ctx = some s) ∧
    (∀ (t : SidTree) (p ctx : Str) (s : Int),
      alGet t.prefixedPathToSid (fullPathOf ctx p) = none →
      alGet t.pathToSid (stripPrefixes (fullPathOf ctx p)) = some s →
      resolvePathToSid p t ctx = some s) ∧
    (∀ (t : SidTree) (p ctx : Str), leafIndexWF t →
      (resolvePathToSid p t ctx = none ↔
        (alGet t.prefixedPathToSid (fullPathOf ctx p) = none ∧
         alGet t.pathToSid (stripPrefixes (fullPathOf ctx p)) = none ∧
         (alGet t.leafToPaths (stripPrefixes p)).getD [] = []))) ∧
    (∀ items : List SidItem, leafIndexWF (buildSidTreeModel items)) ∧
    (∀ (trees : List SidTree) (ch ca : List Str),
      (∀ t ∈ trees, leafIndexWF t) → leafIndexWF (loadYangInputsSidTree trees ch ca)) ∧
    (∀ trees : List SidTree,
      (∀ t ∈ trees, leafIndexWF t) → leafIndexWF (loadMultipleSidFilesTree trees)) :=
  ⟨resolve_direct_prefixed, resolve_direct_stripped, resolve_none_iff,
   leafIndexWF_buildSidTreeModel, leafIndexWF_loadYangInputsSidTree,
   leafIndexWF_loadMultipleSidFilesTree⟩

/-- Sample `.sid` items used by the C2 and C3 witnesses. -/
def witItems : List SidItem :=
  [⟨1, str "data", str "/m:a"⟩, ⟨3, str "data", str "/m:a/m:c/m:b"⟩,
   ⟨5, str "data", str "/m:x"⟩, ⟨6, str "data", str "/m:x/m:b"⟩]

theorem claim_C2_resolution_cascade_witness :
    resolvePathToSid (str "zzz") (buildSidTreeModel witItems) (str "a") = none :=
  (claim_C2_resolution_cascade.2.2.1 (buildSidTreeModel witItems) (str "zzz") (str "a")
    (claim_C2_resolution_cascade.2.2.2.1 witItems)).mpr
    ⟨by decide, by decide, by decide⟩

/-! ## Claim C3 -/

/-- C3: when both direct lookups miss and `leafToPaths` holds candidates
for the stripped segment, `resolvePathToSid` returns the single
candidate's SID when there is exactly one; with several, it returns the
SID of the candidate whose leading segments agree with the stripped
context segments for the greatest count, the earliest such candidate
winning ties (the decomposition `cands = pre ++ b :: post` with every
element of `pre` scoring strictly lower); with an empty context every
candidate scores zero, so the first candidate wins.  (Candidates are
assumed to be non-empty keys of `pathToSid`, the invariant established in
`claim_C2_resolution_cascade` for all built trees.) -/
theorem claim_C3_fuzzy_selection :
    ∀ (t : SidTree) (p ctx : Str) (cands : List Str),
      alGet t.prefixedPathToSid (fullPathOf ctx p) = none →
      alGet t.pathToSid (stripPrefixes (fullPathOf ctx p)) = none →
      alGet t.leafToPaths (stripPrefixes p) = some cands →
      (∀ q ∈ cands, q ≠ [] ∧ alHas t.pathToSid q = true) →
      ((∀ c, cands = [c] →
         resolvePathToSid p t ctx = alGet t.pathToSid c ∧
         (∃ s, alGet t.pathToSid c = some s)) ∧
       (∀ c c2 rest, cands = c :: c2 :: rest →
         ∃ pre b post,
           cands = pre ++ b :: post ∧
           resolvePathToSid p t ctx = alGet t.pathToSid b ∧
           (∃ s, alGet t.pathToSid b = some s) ∧
           (∀ d ∈ cands, candScore ctx d ≤ candScore ctx b) ∧
           (∀ d ∈ pre, candScore ctx d < candScore ctx b) ∧
           (ctxSegs ctx = [] → b = c))) := by
  intro t p ctx cands h1 h2 h3 hwf
  constructor
  · intro c hc
    subst hc
    refine ⟨resolve_fuzzy_single t p ctx c h1 h2 h3, ?_⟩
    exact Option.isSome_iff_exists.mp (hwf c (List.mem_cons_self _ _)).2
  · intro c c2 rest hc
    subst hc
    exact resolve_fuzzy_multi t p ctx c c2 rest h1 h2 h3 hwf

theorem claim_C3_fuzzy_selection_witness :
    ∃ pre b post,
      [str "a/c/b", str "x/b"] = pre ++ b :: post ∧
      resolvePathToSid (str "b") (buildSidTreeModel witItems) (str "x/y") =
        alGet (buildSidTreeModel witItems).pathToSid b ∧
      (∃ s, alGet (buildSidTreeModel witItems).pathToSid b = some s) ∧
      (∀ d ∈ [str "a/c/b", str "x/b"],
        candScore (str "x/y") d ≤ candScore (str "x/y") b) ∧
      (∀ d ∈ pre, candScore (str "x/y") d < candScore (str "x/y") b) ∧
      (ctxSegs (str "x/y") = [] → b = str "a/c/b") :=
  (claim_C3_fuzzy_selection (buildSidTreeModel witItems) (str "b") (str "x/y")
    [str "a/c/b", str "x/b"] (by decide) (by decide) (by decide) (by decide)).2
    (str "a/c/b") (str "x/b") [] rfl

/-! ## Claim C1: parent recomputation -/

theorem scanAncestors_eq_some (m : List (Str × Int)) (parts : List Str)
    (k : Nat) (s : Int) :
    scanAncestors m parts k = some s ↔
      ∃ i, 0 < i ∧ i ≤ k ∧ alGet m (joinTake parts i) = some s ∧
        ∀ j, i < j → j ≤ k → alGet m (joinTake parts j) = none := by
  induction k with
  | zero =>
    simp only [scanAncestors]
    constructor
    · intro h; exact Option.noConfusion h
    · rintro ⟨i, hi0, hik, -, -⟩
      omega
  | succ k ih =>
    simp only [scanAncestors]
    cases hk : alGet m (joinTake parts (k + 1)) with
    | some v =>
      constructor
      · intro h
        cases h
        refine ⟨k + 1, Nat.succ_pos k, le_refl _, hk, ?_⟩
        intro j hj hjk
        omega
      · rintro ⟨i, hi0, hik, hget, hmax⟩
        by_cases hieq : i = k + 1
        · subst hieq
          rw [hget] at hk
          cases hk
          rfl
        · have hik' : i < k + 1 := lt_of_le_of_ne hik hieq
          rw [hmax (k + 1) hik' (le_refl _)] at hk
          exact Option.noConfusion hk
    | none =>
      rw [ih]
      constructor
      · rintro ⟨i, hi0, hik, hget, hmax⟩
        refine ⟨i, hi0, le_trans hik (Nat.le_succ k), hget, ?_⟩
        intro j hj hjk
        by_cases hjeq : j = k + 1
        · subst hjeq; exact hk
        · exact hmax j hj (by omega)
      · rintro ⟨i, hi0, hik, hget, hmax⟩
        have hine : i ≠ k + 1 := by
          intro he
          subst he
          rw [hget] at hk
          exact Option.noConfusion hk
        refine ⟨i, hi0, by omega, hget, ?_⟩
        intro j hj hjk
        exact hmax j hj (le_trans hjk (Nat.le_succ k))

theorem scanAncestors_eq_none (m : List (Str × Int)) (parts : List Str) (k : Nat) :
    scanAncestors m parts k = none ↔
      ∀ i, 0 < i → i ≤ k → alGet m (joinTake parts i) = none := by
  induction k with
  | zero =>
    simp only [scanAncestors]
    constructor
    · intro _ i hi0 hik
      omega
    · intro _; trivial
  | succ k ih =>
    simp only [scanAncestors]
    cases hk : alGet m (joinTake parts (k + 1)) with
    | some v =>
      constructor
      · intro h; exact Option.noConfusion h
      · intro h
        rw [h (k + 1) (Nat.succ_pos k) (le_refl _)] at hk
        exact Option.noConfusion hk
    | none =>
      rw [ih]
      constructor
      · intro h i hi0 hik
        by_cases hieq : i = k + 1
        · subst hieq; exact hk
        · exact h i hi0 (by omega)
      · intro h i hi0 hik
        exact h i hi0 (le_trans hik (Nat.le_succ k))

theorem findParent_eq_some (m : List (Str × Int)) (parts : List Str) (s : Int) :
    findParent m parts = some s ↔
      ∃ i, 0 < i ∧ i < parts.length ∧ alGet m (joinTake parts i) = some s ∧
        ∀ j, i < j → j < parts.length → alGet m (joinTake parts j) = none := by
  unfold findParent
  rw [scanAncestors_eq_some]
  constructor
  · rintro ⟨i, hi0, hik, hget, hmax⟩
    exact ⟨i, hi0, by omega, hget, fun j hj hjl => hmax j hj (by omega)⟩
  · rintro ⟨i, hi0, hil, hget, hmax⟩
    exact ⟨i, hi0, by omega, hget, fun j hj hjk => hmax j hj (by omega)⟩

theorem findParent_eq_none (m : List (Str × Int)) (parts : List Str) :
    findParent m parts = none ↔
      ∀ i, 0 < i → i < parts.length → alGet m (joinTake parts i) = none := by
  unfold findParent
  rw [scanAncestors_eq_none]
  constructor
  · intro h i hi0 hil
    exact h i hi0 (by omega)
  · intro h i hi0 hik
    exact h i hi0 (by omega)

theorem recalc_foldl_notmem (f : Str → Int → NodeInfo)
    (l : List (Str × Int)) (ni0 : List (Str × NodeInfo)) (p : Str)
    (hp : p ∉ l.map Prod.fst) :
    alGet (l.foldl (fun ni (e : Str × Int) =>
      if (str "identity:").isPrefixOf e.1 ∨ (str "feature:").isPrefixOf e.1 then ni
      else alSet ni e.1 (f e.1 e.2)) ni0) p = alGet ni0 p := by
  induction l generalizing ni0 with
  | nil => rfl
  | cons hd tl ih =>
    have hp1 : hd.1 ≠ p := by
      intro he
      exact hp (by simp [he])
    have hp2 : p ∉ tl.map Prod.fst := by
      intro hmem
      exact hp (by simp [hmem])
    rw [List.foldl_cons, ih _ hp2]
    split
    · rfl
    · exact alGet_alSet_ne _ _ _ _ hp1

theorem recalc_foldl_lookup (f : Str → Int → NodeInfo)
    (l : List (Str × Int)) (ni0 : List (Str × NodeInfo))
    (hnd : (l.map Prod.fst).Nodup) (p : Str) (sid : Int)
    (hget : alGet l p = some sid)
    (hsyn : ¬((str "identity:").isPrefixOf p ∨ (str "feature:").isPrefixOf p)) :
    alGet (l.foldl (fun ni (e : Str × Int) =>
      if (str "identity:").isPrefixOf e.1 ∨ (str "feature:").isPrefixOf e.1 then ni
      else alSet ni e.1 (f e.1 e.2)) ni0) p = some (f p sid) := by
  induction l generalizing ni0 with
  | nil => exact absurd hget (by simp [alGet])
  | cons hd tl ih =>
    obtain ⟨q, v⟩ := hd
    rw [List.map_cons, List.nodup_cons] at hnd
    by_cases hq : q = p
    · subst hq
      simp only [alGet, if_pos rfl] at hget
      cases hget
      rw [List.foldl_cons]
      simp only [if_neg hsyn]
      rw [recalc_foldl_notmem f tl _ q hnd.1]
      exact alGet_alSet_self _ _ _
    · simp only [alGet, if_neg hq] at hget
      rw [List.foldl_cons]
      exact ih _ hnd.2 hget

theorem recalcNodeInfo_lookup (t : SidTree)
    (hnd : (t.pathToSid.map Prod.fst).Nodup) (p : Str) (sid : Int)
    (hget : alGet t.pathToSid p = some sid)
    (hid : ¬(str "identity:").isPrefixOf p = true)
    (hfe : ¬(str "feature:").isPrefixOf p = true) :
    alGet (recalcNodeInfo t).nodeInfo p = some
      { sid := sid
        parent := findParent t.pathToSid (pathParts p)
        deltaSid :=
          match findParent t.pathToSid (pathParts p) with
          | some pa => sid - pa
          | none => sid
        depth := (pathParts p).length
        prefixedPath :=
          jsStrOr (alGet t.pathToPrefixed p)
            (jsStrOr (alGet t.sidToPrefixedPath sid) p) } := by
  show alGet (t.pathToSid.foldl (fun ni (e : Str × Int) =>
      if (str "identity:").isPrefixOf e.1 ∨ (str "feature:").isPrefixOf e.1 then ni
      else
        alSet ni e.1
          { sid := e.2
            parent := findParent t.pathToSid (pathParts e.1)
            deltaSid :=
              match findParent t.pathToSid (pathParts e.1) with
              | some pa => e.2 - pa
              | none => e.2
            depth := (pathParts e.1).length
            prefixedPath :=
              jsStrOr (alGet t.pathToPrefixed e.1)
                (jsStrOr (alGet t.sidToPrefixedPath e.2) e.1) }) t.nodeInfo) p = _
  exact recalc_foldl_lookup
    (fun q s =>
      { sid := s
        parent := findParent t.pathToSid (pathParts q)
        deltaSid :=
          match findParent t.pathToSid (pathParts q) with
          | some pa => s - pa
          | none => s
        depth := (pathParts q).length
        prefixedPath :=
          jsStrOr (alGet t.pathToPrefixed q)
            (jsStrOr (alGet t.sidToPrefixedPath s) q) })
    t.pathToSid t.nodeInfo hnd p sid hget (by tauto)

theorem foldl_aliasInsert_nodeInfo (f : Str → Option Str)
    (l : List (Int × Str)) (acc : SidTree) :
    (l.foldl (aliasInsert f) acc).nodeInfo = acc.nodeInfo := by
  induction l generalizing acc with
  | nil => rfl
  | cons hd tl ih =>
    rw [List.foldl_cons, ih, (aliasInsert_frame f acc hd).2.2.2.2.1]

theorem augment_nodeInfo (t : SidTree) (ch ca : List Str) :
    (augmentSidTreeWithAliases t ch ca).nodeInfo = t.nodeInfo := by
  unfold augmentSidTreeWithAliases
  split
  · rfl
  · exact foldl_aliasInsert_nodeInfo _ _ _

/-- C1 (amended): after the `nodeInfo` recomputation shared by both
builds, every path `p` that is a non-synthetic key of `pathToSid` *at the
time of the recompute* has a `nodeInfo` entry whose `parent` is the SID
of the longest proper segment-prefix of `p` present in `pathToSid` (none
when no ancestor exists), with `deltaSid = sid - parent` (else `sid`),
hence `deltaSid + parent = sid` whenever a parent exists.
`loadMultipleSidFiles` is exactly merge-then-recompute (conjunct 2), and
in the `loadYangInputs` rebuild the final `nodeInfo` is that of the
recompute stage, alias augmentation never touching it (conjunct 3) — the
amendment: alias paths added to `pathToSid` afterwards carry no
`nodeInfo` entry, as the counterexample shows. -/
theorem claim_C1_nodeinfo_parent :
    (∀ t : SidTree, (t.pathToSid.map Prod.fst).Nodup →
      ∀ (p : Str) (sid : Int),
        alGet t.pathToSid p = some sid →
        ¬(str "identity:").isPrefixOf p = true →
        ¬(str "feature:").isPrefixOf p = true →
        ∃ info, alGet (recalcNodeInfo t).nodeInfo p = some info ∧
          info.sid = sid ∧
          (∀ s : Int, info.parent = some s ↔
            ∃ i, 0 < i ∧ i < (pathParts p).length ∧
              alGet t.pathToSid (joinTake (pathParts p) i) = some s ∧
              ∀ j, i < j → j < (pathParts p).length →
                alGet t.pathToSid (joinTake (pathParts p) j) = none) ∧
          (info.parent = none ↔
            ∀ i, 0 < i → i < (pathParts p).length →
              alGet t.pathToSid (joinTake (pathParts p) i) = none) ∧
          (∀ s : Int, info.parent = some s →
            info.deltaSid = sid - s ∧ info.deltaSid + s = sid) ∧
          (info.parent = none → info.deltaSid = sid)) ∧
    (∀ trees : List SidTree,
      loadMultipleSidFilesTree trees =
        recalcNodeInfo (trees.foldl (mergeOneTree true) {})) ∧
    (∀ (trees : List SidTree) (ch ca : List Str),
      (loadYangInputsSidTree trees ch ca).nodeInfo =
        (recalcNodeInfo (trees.foldl (mergeOneTree false) {})).nodeInfo) := by
  refine ⟨?_, fun trees => rfl, fun trees ch ca => augment_nodeInfo _ ch ca⟩
  intro t hnd p sid hget hid hfe
  refine ⟨_, recalcNodeInfo_lookup t hnd p sid hget hid hfe, rfl, ?_, ?_, ?_, ?_⟩
  · intro s
    simp only
    exact findParent_eq_some t.pathToSid (pathParts p) s
  · simp only
    exact findParent_eq_none t.pathToSid (pathParts p)
  · intro s hs
    simp only at hs ⊢
    rw [hs]
    exact ⟨rfl, by ring⟩
  · intro hs
    simp only at hs ⊢
    rw [hs]

/-- Items reproducing the C1 counterexample: a choice node `ch` sits
between `a` and `b`. -/
def c1Items : List SidItem :=
  [⟨1, str "data", str "/m:a"⟩, ⟨2, str "data", str "/m:a/m:ch"⟩,
   ⟨3, str "data", str "/m:a/m:ch/m:b"⟩]

/-- C1 counterexample: after the `loadYangInputs` rebuild completes
(including Step 7 alias augmentation with choice name `ch`), the
non-synthetic stripped path `a/b` is a key of `pathToSid`, yet `nodeInfo`
has no entry for it — refuting the claim that after the build every
non-synthetic path in `pathToSid` has a `nodeInfo` entry. -/
theorem claim_C1_counterexample :
    alGet (loadYangInputsSidTree [buildSidTreeModel c1Items]
      [str "ch"] []).pathToSid (str "a/b") = some 3 ∧
    ¬(str "identity:").isPrefixOf (str "a/b") = true ∧
    ¬(str "feature:").isPrefixOf (str "a/b") = true ∧
    alGet (loadYangInputsSidTree [buildSidTreeModel c1Items]
      [str "ch"] []).nodeInfo (str "a/b") = none := by
  decide

theorem claim_C1_nodeinfo_parent_witness :
    ∃ info,
      alGet (recalcNodeInfo (buildSidTreeModel witItems)).nodeInfo (str "a/c/b") =
        some info ∧
      info.sid = 3 ∧ info.parent = some 1 ∧ info.deltaSid = 2 ∧
      info.deltaSid + 1 = info.sid := by
  obtain ⟨info, hgetinfo, hsid, hsome, hnone, hdelta, hdnone⟩ :=
    claim_C1_nodeinfo_parent.1 (buildSidTreeModel witItems) (by decide)
      (str "a/c/b") 3 (by decide) (by decide) (by decide)
  have hpar : info.parent = some 1 := by
    refine (hsome 1).mpr ⟨1, Nat.one_pos, by decide, by decide, ?_⟩
    intro j hj1 hj3
    have hj2 : j = 2 := by
      have : (pathParts (str "a/c/b")).length = 3 := by decide
      omega
    subst hj2
    decide
  obtain ⟨hd1, hd2⟩ := hdelta 1 hpar
  refine ⟨info, hgetinfo, hsid, hpar, ?_, ?_⟩
  · rw [hd1]; norm_num
  · rw [hsid]; exact hd2

/-! ## Claim C4: alias augmentation refines its specification -/

theorem segBare_nocolon {seg : Str} (h : ':' ∉ seg) : segBare seg = seg := by
  unfold segBare
  rw [if_neg h]

theorem bareOrSelf_nocolon {seg : Str} (h : ':' ∉ seg) : bareOrSelf seg = seg := by
  simp [bareOrSelf, segBare_nocolon h]

theorem bareOrSelf_ne_nil {seg : Str} (h : seg ≠ []) : bareOrSelf seg ≠ [] := by
  simp only [bareOrSelf]
  split
  · exact h
  · assumption

theorem mem_nameClosure {x : Str} {names : List Str} :
    x ∈ nameClosure names ↔
      ∃ n ∈ names, n ≠ [] ∧ (x = n ∨ (segBare n ≠ [] ∧ x = segBare n)) := by
  induction names with
  | nil => simp [nameClosure]
  | cons n rest ih =>
    simp only [nameClosure, List.mem_append, ih, List.mem_cons]
    constructor
    · rintro ((h | h) | ⟨m, hm, hne, hx⟩)
      · by_cases hn : n = []
        · simp [hn] at h
        · simp only [if_neg hn, List.mem_singleton] at h
          exact ⟨n, Or.inl rfl, hn, Or.inl h⟩
      · by_cases hn : n = []
        · simp [hn] at h
        · by_cases hb : segBare n = []
          · simp [hn, hb] at h
          · simp only [if_neg hn, if_neg hb, List.mem_singleton] at h
            exact ⟨n, Or.inl rfl, hn, Or.inr ⟨hb, h⟩⟩
      · exact ⟨m, Or.inr hm, hne, hx⟩
    · rintro ⟨m, hm | hm, hne, hx | ⟨hb, hx⟩⟩
      · subst hm
        exact Or.inl (Or.inl (by simp [if_neg hne, hx]))
      · subst hm
        exact Or.inl (Or.inr (by simp [if_neg hne, if_neg hb, hx]))
      · exact Or.inr ⟨m, hm, hne, Or.inl hx⟩
      · exact Or.inr ⟨m, hm, hne, Or.inr ⟨hb, hx⟩⟩

theorem mem_nameClosure_bare {x : Str} {names : List Str}
    (hbare : ∀ n ∈ names, ':' ∉ n) :
    x ∈ nameClosure names ↔ (x ∈ names ∧ x ≠ []) := by
  rw [mem_nameClosure]
  constructor
  · rintro ⟨n, hn, hne, hx | ⟨hb, hx⟩⟩
    · subst hx; exact ⟨hn, hne⟩
    · rw [segBare_nocolon (hbare n hn)] at hx
      subst hx; exact ⟨hn, hne⟩
  · rintro ⟨hx, hne⟩
    exact ⟨x, hx, hne, Or.inl rfl⟩

theorem foldl_congr' {α β : Type} (f g : α → β → α)
    (h : ∀ a b, f a b = g a b) (l : List β) (a : α) :
    l.foldl f a = l.foldl g a := by
  induction l generalizing a with
  | nil => rfl
  | cons hd tl ih => rw [List.foldl_cons, List.foldl_cons, h, ih]

/-- The alias recipe as the specification words it: drop every segment
whose bare name is a choice or case name, collapse consecutive duplicate
segments by bare name, and keep the alias only when it is non-empty and
differs from the original path. -/
def aliasOfSpec (choiceNames caseNames : List Str) (p : Str) : Option Str :=
  if p = [] then none
  else
    let kept := ((splitOnChar '/' p).filter (· ≠ [])).filter
      (fun seg => ¬(bareOrSelf seg ∈ choiceNames ∨ bareOrSelf seg ∈ caseNames))
    let collapsed := kept.foldl (fun acc seg =>
      match acc.getLast? with
      | some last => if bareOrSelf last = bareOrSelf seg then acc else acc ++ [seg]
      | none => acc ++ [seg]) []
    let a := joinChar '/' collapsed
    if a ≠ [] ∧ a ≠ p then some a else none

/-- The specification-side augmentation: for every prefixed path in
`sidToPrefixedPath`, add the alias to `prefixedPathToSid` and its
stripped form to `pathToSid` and `pathToPrefixed`, each only when not
already mapped; a sentinel guards idempotence. -/
def augmentAliasesSpec (t : SidTree) (choiceNames caseNames : List Str) : SidTree :=
  if t.aliasesAugmented then t
  else
    { t.sidToPrefixedPath.foldl (fun acc (entry : Int × Str) =>
        match aliasOfSpec choiceNames caseNames entry.2 with
        | none => acc
        | some aliasP =>
          let acc :=
            if alHas acc.prefixedPathToSid aliasP then acc
            else { acc with prefixedPathToSid := alSet acc.prefixedPathToSid aliasP entry.1 }
          if alHas acc.pathToSid (stripPrefixes aliasP) then acc
          else
            { acc with
              pathToSid := alSet acc.pathToSid (stripPrefixes aliasP) entry.1
              pathToPrefixed := alSet acc.pathToPrefixed (stripPrefixes aliasP) aliasP })
        t
      with aliasesAugmented := true }

theorem buildAlias_eq_spec (ch ca : List Str)
    (hbare : ∀ n ∈ ch ++ ca, ':' ∉ n) (p : Str) :
    buildAlias (nameClosure ch) (nameClosure ca) p = aliasOfSpec ch ca p := by
  have hch : ∀ n ∈ ch, ':' ∉ n := fun n hn => hbare n (List.mem_append_left _ hn)
  have hca : ∀ n ∈ ca, ':' ∉ n := fun n hn => hbare n (List.mem_append_right _ hn)
  unfold buildAlias aliasOfSpec
  by_cases hp : p = []
  · rw [if_pos hp, if_pos hp]
  · rw [if_neg hp, if_neg hp]
    simp only
    have hfilter :
        ((splitOnChar '/' p).filter (· ≠ [])).filter
          (fun segment =>
            ¬(segment ∈ nameClosure ch ∨ bareOrSelf segment ∈ nameClosure ch ∨
              segment ∈ nameClosure ca ∨ bareOrSelf segment ∈ nameClosure ca)) =
        ((splitOnChar '/' p).filter (· ≠ [])).filter
          (fun seg => ¬(bareOrSelf seg ∈ ch ∨ bareOrSelf seg ∈ ca)) := by
      apply List.filter_congr
      intro seg hseg
      have hsegne : seg ≠ [] := by
        have := List.of_mem_filter hseg
        simpa using this
      have hbne : bareOrSelf seg ≠ [] := bareOrSelf_ne_nil hsegne
      have hiff :
          (seg ∈ nameClosure ch ∨ bareOrSelf seg ∈ nameClosure ch ∨
            seg ∈ nameClosure ca ∨ bareOrSelf seg ∈ nameClosure ca) ↔
          (bareOrSelf seg ∈ ch ∨ bareOrSelf seg ∈ ca) := by
        rw [mem_nameClosure_bare hch, mem_nameClosure_bare hch,
          mem_nameClosure_bare hca, mem_nameClosure_bare hca]
        constructor
        · rintro (⟨h1, h2⟩ | ⟨h1, h2⟩ | ⟨h1, h2⟩ | ⟨h1, h2⟩)
          · exact Or.inl (by rwa [bareOrSelf_nocolon (hch seg h1)])
          · exact Or.inl h1
          · exact Or.inr (by rwa [bareOrSelf_nocolon (hca seg h1)])
          · exact Or.inr h1
        · rintro (h | h)
          · exact Or.inr (Or.inl ⟨h, hbne⟩)
          · exact Or.inr (Or.inr (Or.inr ⟨h, hbne⟩))
      simp only [decide_eq_decide]
      rw [hiff]
    rw [hfilter]
    have hfold :
        (((splitOnChar '/' p).filter (· ≠ [])).filter
          (fun seg => ¬(bareOrSelf seg ∈ ch ∨ bareOrSelf seg ∈ ca))).foldl
          (fun acc segment =>
            match acc.getLast? with
            | some last =>
              if last = segment ∨ bareOrSelf last = bareOrSelf segment then acc
              else acc ++ [segment]
            | none => acc ++ [segment]) [] =
        (((splitOnChar '/' p).filter (· ≠ [])).filter
          (fun seg => ¬(bareOrSelf seg ∈ ch ∨ bareOrSelf seg ∈ ca))).foldl
          (fun acc seg =>
            match acc.getLast? with
            | some last => if bareOrSelf last = bareOrSelf seg then acc else acc ++ [seg]
            | none => acc ++ [seg]) [] := by
      apply foldl_congr'
      intro acc seg
      cases hlast : acc.getLast? with
      | none => rfl
      | some last =>
        simp only
        by_cases heq : last = seg ∨ bareOrSelf last = bareOrSelf seg
        · rw [if_pos heq, if_pos ?_]
          rcases heq with heq | heq
          · rw [heq]
          · exact heq
        · rw [if_neg heq, if_neg ?_]
          intro hb
          exact heq (Or.inr hb)
    rw [hfold]

theorem augment_of_sentinel (t : SidTree) (ch ca : List Str)
    (h : t.aliasesAugmented = true) :
    augmentSidTreeWithAliases t ch ca = t := by
  unfold augmentSidTreeWithAliases
  rw [if_pos h]

theorem augment_sets_sentinel (t : SidTree) (ch ca : List Str) :
    (augmentSidTreeWithAliases t ch ca).aliasesAugmented = true ∨
    augmentSidTreeWithAliases t ch ca = t := by
  unfold augmentSidTreeWithAliases
  by_cases hs : t.aliasesAugmented
  · rw [if_pos hs]
    exact Or.inr rfl
  · rw [if_neg hs]
    exact Or.inl rfl

/-- C4: under prefix-free choice/case name sets (the YANG extractor
collects bare schema-node names), `augmentSidTreeWithAliases` computes
exactly the claimed augmentation — for every prefixed path, the alias
obtained by dropping segments whose bare name is a choice/case name and
collapsing consecutive duplicates by bare name, added to
`prefixedPathToSid` and, in stripped form, to `pathToSid` /
`pathToPrefixed` with the original SID, each only when non-empty,
different from the original, and not already mapped — and the operation
is idempotent thanks to the sentinel. -/
theorem claim_C4_alias_augmentation :
    ∀ (t : SidTree) (choiceNames caseNames : List Str),
      (∀ n ∈ choiceNames ++ caseNames, ':' ∉ n) →
      (augmentSidTreeWithAliases t choiceNames caseNames =
        augmentAliasesSpec t choiceNames caseNames) ∧
      (augmentSidTreeWithAliases
          (augmentSidTreeWithAliases t choiceNames caseNames) choiceNames caseNames =
        augmentSidTreeWithAliases t choiceNames caseNames) := by
  intro t ch ca hbare
  constructor
  · unfold augmentSidTreeWithAliases augmentAliasesSpec
    by_cases hs : t.aliasesAugmented
    · rw [if_pos hs, if_pos hs]
    · rw [if_neg hs, if_neg hs]
      have hfold :
          t.sidToPrefixedPath.foldl
            (aliasInsert (buildAlias (nameClosure ch) (nameClosure ca))) t =
          t.sidToPrefixedPath.foldl (fun acc (entry : Int × Str) =>
            match aliasOfSpec ch ca entry.2 with
            | none => acc
            | some aliasP =>
              let acc :=
                if alHas acc.prefixedPathToSid aliasP then acc
                else
                  { acc with
                    prefixedPathToSid := alSet acc.prefixedPathToSid aliasP entry.1 }
              if alHas acc.pathToSid (stripPrefixes aliasP) then acc
              else
                { acc with
                  pathToSid := alSet acc.pathToSid (stripPrefixes aliasP) entry.1
                  pathToPrefixed :=
                    alSet acc.pathToPrefixed (stripPrefixes aliasP) aliasP }) t := by
        apply foldl_congr'
        intro acc e
        unfold aliasInsert
        rw [buildAlias_eq_spec ch ca hbare e.2]
        cases aliasOfSpec ch ca e.2 with
        | none => rfl
        | some aliasP =>
          simp only
          set acc2 : SidTree :=
            if alHas acc.prefixedPathToSid aliasP then acc
            else
              { acc with
                prefixedPathToSid := alSet acc.prefixedPathToSid aliasP e.1 } with hacc2
          cases hg : alGet acc2.pathToSid (stripPrefixes aliasP) with
          | none =>
            have hh : alHas acc2.pathToSid (stripPrefixes aliasP) = false := by
              simp [alHas, hg]
            simp [hh]
          | some v =>
            have hh : alHas acc2.pathToSid (stripPrefixes aliasP) = true := by
              simp [alHas, hg]
            simp [hh]
      dsimp only
      rw [hfold]
  · rcases augment_sets_sentinel t ch ca with h | h
    · exact augment_of_sentinel _ ch ca h
    · rw [h]
      exact h

/-- C4 counterexample: with the prefixed choice name `m:ch`, the code
also drops the segment `m:ch` (its closure contains the bare `ch` and
the full name), while the claim's recipe — drop a segment only when its
*bare name* is in the given set — drops nothing, so the two augmentations
disagree on the tree built from `c1Items`. -/
theorem claim_C4_counterexample :
    augmentSidTreeWithAliases (buildSidTreeModel c1Items) [str "m:ch"] [] ≠
      augmentAliasesSpec (buildSidTreeModel c1Items) [str "m:ch"] [] := by
  decide

theorem claim_C4_alias_augmentation_witness :
    (augmentSidTreeWithAliases (buildSidTreeModel c1Items) [str "ch"] [] =
      augmentAliasesSpec (buildSidTreeModel c1Items) [str "ch"] []) ∧
    (augmentSidTreeWithAliases
        (augmentSidTreeWithAliases (buildSidTreeModel c1Items) [str "ch"] [])
        [str "ch"] [] =
      augmentSidTreeWithAliases (buildSidTreeModel c1Items) [str "ch"] []) :=
  claim_C4_alias_augmentation (buildSidTreeModel c1Items) [str "ch"] [] (by decide)

/-! ## Claim C10: augmentation is strictly additive -/

theorem alHas_of_mem {α β : Type} [DecidableEq α] {m : List (α × β)} {k : α} {v : β}
    (h : (k, v) ∈ m) : alHas m k = true := by
  induction m with
  | nil => cases h
  | cons hd tl ih =>
    obtain ⟨k', v'⟩ := hd
    by_cases hk : k' = k
    · simp [alHas, alGet, hk]
    · rcases List.mem_cons.mp h with h' | h'
      · cases h'
        exact absurd rfl hk
      · simpa [alHas, alGet, hk] using ih h'

theorem alHas_of_alSet {α β : Type} [DecidableEq α] {m : List (α × β)} {k0 k : α}
    {v : β} (h : alHas (alSet m k0 v) k = true) : k = k0 ∨ alHas m k = true := by
  by_cases hk : k0 = k
  · exact Or.inl hk.symm
  · rw [alHas, alGet_alSet_ne m k0 k v hk] at h
    exact Or.inr h

theorem alHas_of_foldl_insert {α β : Type} [DecidableEq α]
    {l : List (α × β)} {m : List (α × β)} {k : α}
    (h : alHas (l.foldl (fun m (e : α × β) => alSet m e.1 e.2) m) k = true) :
    alHas m k = true ∨ ∃ v, (k, v) ∈ l := by
  induction l generalizing m with
  | nil => exact Or.inl h
  | cons hd tl ih =>
    rw [List.foldl_cons] at h
    rcases ih h with h' | ⟨v, hv⟩
    · rcases alHas_of_alSet h' with h'' | h''
      · exact Or.inr ⟨hd.2, by rw [h'']; exact List.mem_cons_self _ _⟩
      · exact Or.inl h''
    · exact Or.inr ⟨v, List.mem_cons_of_mem _ hv⟩

/-- Invariant of every tree the program builds: every key of
`pathToPrefixed` is also a key of `pathToSid` (both are always written
together). -/
def ppKeysWF (t : SidTree) : Prop :=
  ∀ k, alHas t.pathToPrefixed k = true → alHas t.pathToSid k = true

theorem ppKeysWF_empty : ppKeysWF {} := by
  intro k h
  simp [alHas, alGet] at h

theorem psiPrefixedStep_pathToPrefixed (tree : SidTree) (item : SidItem) :
    (psiPrefixedStep tree item).pathToPrefixed = tree.pathToPrefixed ∨
    ∃ pp, (psiPrefixedStep tree item).pathToPrefixed =
      alSet tree.pathToPrefixed (psiPaths item).1 pp := by
  unfold psiPrefixedStep
  repeat' split
  · exact Or.inr ⟨_, rfl⟩
  · exact Or.inl rfl
  · exact Or.inl rfl

theorem ppKeysWF_processSidItem (t : SidTree) (item : SidItem)
    (h : ppKeysWF t) : ppKeysWF (processSidItem t item) := by
  unfold processSidItem
  set t1 := psiIdentityStep t item with ht1
  set t2 := psiLeafStep t1 item with ht2
  set t3 := psiPathStep t2 item with ht3
  have h1 : ppKeysWF t1 := by
    intro k hk
    rw [(psiIdentityStep_fields t item).1]
    rw [(psiIdentityStep_fields t item).2.2.2.2.1] at hk
    exact h k hk
  have h2 : ppKeysWF t2 := by
    intro k hk
    rw [(psiLeafStep_fields t1 item).1]
    rw [(psiLeafStep_fields t1 item).2.2.2.2.1] at hk
    exact h1 k hk
  have h3 : ppKeysWF t3 := by
    intro k hk
    rw [(psiPathStep_fields t2 item).1]
    rw [(psiPathStep_fields t2 item).2.2.2.2.1] at hk
    exact alHas_alSet _ _ _ _ (h2 k hk)
  have hy : alHas t3.pathToSid (psiPaths item).1 = true := by
    rw [(psiPathStep_fields t2 item).1]
    simp [alHas, alGet_alSet_self]
  intro k hk
  rw [(psiPrefixedStep_fields t3 item).1]
  rcases psiPrefixedStep_pathToPrefixed t3 item with hpp | ⟨pp, hpp⟩
  · rw [hpp] at hk
    exact h3 k hk
  · rw [hpp] at hk
    rcases alHas_of_alSet hk with hk' | hk'
    · rw [hk']
      exact hy
    · exact h3 k hk'

theorem ppKeysWF_buildSidTreeModel (items : List SidItem) :
    ppKeysWF (buildSidTreeModel items) := by
  have aux : ∀ (l : List SidItem) (t : SidTree), ppKeysWF t →
      ppKeysWF (l.foldl processSidItem t) := by
    intro l
    induction l with
    | nil => intro t ht; exact ht
    | cons hd tl ih => intro t ht; exact ih _ (ppKeysWF_processSidItem t hd ht)
  exact aux items {} ppKeysWF_empty

theorem mergeOneTree_pathToPrefixed (w : Bool) (acc tree : SidTree) :
    (mergeOneTree w acc tree).pathToPrefixed =
      tree.pathToPrefixed.foldl (fun m (e : Str × Str) => alSet m e.1 e.2)
        acc.pathToPrefixed := by
  simp only [mergeOneTree]
  split <;> rfl

theorem ppKeysWF_mergeOneTree (w : Bool) (acc tree : SidTree)
    (ha : ppKeysWF acc) (ht : ppKeysWF tree) :
    ppKeysWF (mergeOneTree w acc tree) := by
  intro k hk
  rw [mergeOneTree_pathToPrefixed] at hk
  rw [mergeOneTree_pathToSid]
  rcases alHas_of_foldl_insert hk with hk' | ⟨v, hv⟩
  · rcases Option.isSome_iff_exists.mp (ha k hk') with ⟨s, hs⟩
    exact alHas_foldl_insert_mono _ _ _ (by simp [alHas, hs])
  · have htk : alHas tree.pathToPrefixed k = true := alHas_of_mem hv
    rcases Option.isSome_iff_exists.mp (ht k htk) with ⟨s, hs⟩
    exact alHas_foldl_insert_of_mem _ _ _ s (alGet_mem hs)

theorem ppKeysWF_recalcNodeInfo (t : SidTree) (h : ppKeysWF t) :
    ppKeysWF (recalcNodeInfo t) := h

theorem ppKeysWF_foldl_merge (w : Bool) (l : List SidTree) (acc : SidTree)
    (hacc : ppKeysWF acc) (hl : ∀ t ∈ l, ppKeysWF t) :
    ppKeysWF (l.foldl (mergeOneTree w) acc) := by
  induction l generalizing acc with
  | nil => exact hacc
  | cons hd tl ih =>
    exact ih _ (ppKeysWF_mergeOneTree w acc hd hacc (hl hd (List.mem_cons_self _ _)))
      (fun t ht => hl t (List.mem_cons_of_mem _ ht))

theorem alGet_none_of_not_has {α β : Type} [DecidableEq α]
    {m : List (α × β)} {k : α} (h : ¬alHas m k = true) : alGet m k = none := by
  rw [alHas] at h
  cases hg : alGet m k with
  | none => rfl
  | some v => rw [hg] at h; simp at h

theorem aliasInsert_preserves (f : Str → Option Str) (t acc : SidTree)
    (e : Int × Str)
    (h1 : ∀ k v, alGet t.prefixedPathToSid k = some v →
      alGet acc.prefixedPathToSid k = some v)
    (h2 : ∀ k v, alGet t.pathToSid k = some v → alGet acc.pathToSid k = some v)
    (h3 : ∀ k v, alGet t.pathToPrefixed k = some v → alGet acc.pathToPrefixed k = some v)
    (h4 : ppKeysWF acc) :
    (∀ k v, alGet t.prefixedPathToSid k = some v →
      alGet (aliasInsert f acc e).prefixedPathToSid k = some v) ∧
    (∀ k v, alGet t.pathToSid k = some v →
      alGet (aliasInsert f acc e).pathToSid k = some v) ∧
    (∀ k v, alGet t.pathToPrefixed k = some v →
      alGet (aliasInsert f acc e).pathToPrefixed k = some v) ∧
    ppKeysWF (aliasInsert f acc e) := by
  unfold aliasInsert
  cases f e.2 with
  | none => exact ⟨h1, h2, h3, h4⟩
  | some aliasP =>
    simp only
    by_cases hpf : alHas acc.prefixedPathToSid aliasP = true
    · rw [if_pos hpf]
      cases hg : alGet acc.pathToSid (stripPrefixes aliasP) with
      | some v => exact ⟨h1, h2, h3, h4⟩
      | none =>
        have hppnone : alGet acc.pathToPrefixed (stripPrefixes aliasP) = none := by
          by_cases hpp : alHas acc.pathToPrefixed (stripPrefixes aliasP) = true
          · have := h4 _ hpp
            rw [alHas, hg] at this
            exact absurd this (by simp)
          · exact alGet_none_of_not_has hpp
        refine ⟨h1, ?_, ?_, ?_⟩
        · intro k v hk
          exact alGet_preserved_alSet _ _ _ _ _ hg (h2 k v hk)
        · intro k v hk
          exact alGet_preserved_alSet _ _ _ _ _ hppnone (h3 k v hk)
        · intro k hk
          rcases alHas_of_alSet hk with hk' | hk'
          · rw [hk']
            simp [alHas, alGet_alSet_self]
          · exact alHas_alSet _ _ _ _ (h4 k hk')
    · rw [if_neg hpf]
      have hpfnone : alGet acc.prefixedPathToSid aliasP = none := by
        exact alGet_none_of_not_has hpf
      have h1' : ∀ k v, alGet t.prefixedPathToSid k = some v →
          alGet (alSet acc.prefixedPathToSid aliasP e.1) k = some v := by
        intro k v hk
        exact alGet_preserved_alSet _ _ _ _ _ hpfnone (h1 k v hk)
      cases hg : alGet acc.pathToSid (stripPrefixes aliasP) with
      | some v => exact ⟨h1', h2, h3, h4⟩
      | none =>
        have hppnone : alGet acc.pathToPrefixed (stripPrefixes aliasP) = none := by
          by_cases hpp : alHas acc.pathToPrefixed (stripPrefixes aliasP) = true
          · have := h4 _ hpp
            rw [alHas, hg] at this
            exact absurd this (by simp)
          · exact alGet_none_of_not_has hpp
        refine ⟨h1', ?_, ?_, ?_⟩
        · intro k v hk
          exact alGet_preserved_alSet _ _ _ _ _ hg (h2 k v hk)
        · intro k v hk
          exact alGet_preserved_alSet _ _ _ _ _ hppnone (h3 k v hk)
        · intro k hk
          rcases alHas_of_alSet hk with hk' | hk'
          · rw [hk']
            simp [alHas, alGet_alSet_self]
          · exact alHas_alSet _ _ _ _ (h4 k hk')

theorem foldl_aliasInsert_preserves (f : Str → Option Str) (t : SidTree)
    (l : List (Int × Str)) (acc : SidTree)
    (h1 : ∀ k v, alGet t.prefixedPathToSid k = some v →
      alGet acc.prefixedPathToSid k = some v)
    (h2 : ∀ k v, alGet t.pathToSid k = some v → alGet acc.pathToSid k = some v)
    (h3 : ∀ k v, alGet t.pathToPrefixed k = some v → alGet acc.pathToPrefixed k = some v)
    (h4 : ppKeysWF acc) :
    (∀ k v, alGet t.prefixedPathToSid k = some v →
      alGet (l.foldl (aliasInsert f) acc).prefixedPathToSid k = some v) ∧
    (∀ k v, alGet t.pathToSid k = some v →
      alGet (l.foldl (aliasInsert f) acc).pathToSid k = some v) ∧
    (∀ k v, alGet t.pathToPrefixed k = some v →
      alGet (l.foldl (aliasInsert f) acc).pathToPrefixed k = some v) ∧
    ppKeysWF (l.foldl (aliasInsert f) acc) := by
  induction l generalizing acc with
  | nil => exact ⟨h1, h2, h3, h4⟩
  | cons hd tl ih =>
    obtain ⟨g1, g2, g3, g4⟩ := aliasInsert_preserves f t acc hd h1 h2 h3 h4
    exact ih _ g1 g2 g3 g4

theorem foldl_aliasInsert_frame (f : Str → Option Str)
    (l : List (Int × Str)) (acc : SidTree) :
    (l.foldl (aliasInsert f) acc).sidToPath = acc.sidToPath ∧
    (l.foldl (aliasInsert f) acc).sidToPrefixedPath = acc.sidToPrefixedPath ∧
    (l.foldl (aliasInsert f) acc).identityToSid = acc.identityToSid ∧
    (l.foldl (aliasInsert f) acc).sidToIdentity = acc.sidToIdentity := by
  induction l generalizing acc with
  | nil => exact ⟨rfl, rfl, rfl, rfl⟩
  | cons hd tl ih =>
    rw [List.foldl_cons]
    obtain ⟨i1, i2, i3, i4⟩ := ih (aliasInsert f acc hd)
    obtain ⟨a1, a2, a3, a4, -, -, -⟩ := aliasInsert_frame f acc hd
    exact ⟨i1.trans a1, i2.trans a2, i3.trans a3, i4.trans a4⟩

/-- C10: alias augmentation is strictly additive on every tree
satisfying the `pathToPrefixed ⊆ pathToSid` key invariant — it leaves
`sidToPath`, `sidToPrefixedPath`, `identityToSid`, `sidToIdentity`,
`nodeInfo` and `leafToPaths` untouched, and every existing entry of
`prefixedPathToSid`, `pathToSid` and `pathToPrefixed` keeps its value
(only new keys may appear).  The invariant holds for every tree the
program builds: conjuncts 2 and 3 prove it for `buildSidTree` and for
the merged-and-recomputed trees that both loaders feed into
augmentation. -/
theorem claim_C10_augmentation_additive :
    (∀ (t : SidTree) (ch ca : List Str), ppKeysWF t →
      (augmentSidTreeWithAliases t ch ca).sidToPath = t.sidToPath ∧
      (augmentSidTreeWithAliases t ch ca).sidToPrefixedPath = t.sidToPrefixedPath ∧
      (augmentSidTreeWithAliases t ch ca).identityToSid = t.identityToSid ∧
      (augmentSidTreeWithAliases t ch ca).sidToIdentity = t.sidToIdentity ∧
      (augmentSidTreeWithAliases t ch ca).nodeInfo = t.nodeInfo ∧
      (augmentSidTreeWithAliases t ch ca).leafToPaths = t.leafToPaths ∧
      (∀ k v, alGet t.prefixedPathToSid k = some v →
        alGet (augmentSidTreeWithAliases t ch ca).prefixedPathToSid k = some v) ∧
      (∀ k v, alGet t.pathToSid k = some v →
        alGet (augmentSidTreeWithAliases t ch ca).pathToSid k = some v) ∧
      (∀ k v, alGet t.pathToPrefixed k = some v →
        alGet (augmentSidTreeWithAliases t ch ca).pathToPrefixed k = some v)) ∧
    (∀ items : List SidItem, ppKeysWF (buildSidTreeModel items)) ∧
    (∀ (w : Bool) (trees : List SidTree), (∀ t ∈ trees, ppKeysWF t) →
      ppKeysWF (recalcNodeInfo (trees.foldl (mergeOneTree w) {}))) := by
  refine ⟨?_, ppKeysWF_buildSidTreeModel, ?_⟩
  · intro t ch ca hpp
    unfold augmentSidTreeWithAliases
    by_cases hs : t.aliasesAugmented
    · rw [if_pos hs]
      exact ⟨rfl, rfl, rfl, rfl, rfl, rfl,
        fun k v h => h, fun k v h => h, fun k v h => h⟩
    · rw [if_neg hs]
      obtain ⟨f1, f2, f3, f4⟩ :=
        foldl_aliasInsert_frame (buildAlias (nameClosure ch) (nameClosure ca))
          t.sidToPrefixedPath t
      obtain ⟨p1, p2, p3, -⟩ :=
        foldl_aliasInsert_preserves (buildAlias (nameClosure ch) (nameClosure ca)) t
          t.sidToPrefixedPath t (fun k v h => h) (fun k v h => h) (fun k v h => h) hpp
      exact ⟨f1, f2, f3, f4, foldl_aliasInsert_nodeInfo _ _ _,
        foldl_aliasInsert_leafToPaths _ _ _, p1, p2, p3⟩
  · intro w trees hl
    exact ppKeysWF_recalcNodeInfo _ (ppKeysWF_foldl_merge w trees {} ppKeysWF_empty hl)

theorem claim_C10_augmentation_additive_witness :
    (augmentSidTreeWithAliases (buildSidTreeModel c1Items)
        [str "ch"] []).nodeInfo = (buildSidTreeModel c1Items).nodeInfo ∧
    (∀ k v, alGet (buildSidTreeModel c1Items).pathToSid k = some v →
      alGet (augmentSidTreeWithAliases (buildSidTreeModel c1Items)
        [str "ch"] []).pathToSid k = some v) :=
  let h := (claim_C10_augmentation_additive.1 (buildSidTreeModel c1Items)
    [str "ch"] [] (claim_C10_augmentation_additive.2.1 c1Items))
  ⟨h.2.2.2.2.1, h.2.2.2.2.2.2.2.1⟩

/-! ## Claim C5: cache validity and fallback (input-loader) -/

/-- `CACHE_VERSION` from the input-loader. -/
def CACHE_VERSION : Int := 1

/-- The file-system facts the cache decision depends on: `none` models a
throwing `stat`/`readdir`, and an unreadable or unparsable cache file has
`cacheVersion = none`. -/
structure CacheEnv where
  cacheMTime : Option Int
  dirListing : Option (List (Str × Int))
  cacheVersion : Option Int
  noCache : Bool
  deriving DecidableEq, Repr

/-- `isCacheValid` from the input-loader: the cache file must stat, and
no `.yang` or `.sid` file in the directory may be strictly newer; any
thrown error yields `false`. -/
def isCacheValid (e : CacheEnv) : Bool :=
  match e.cacheMTime, e.dirListing with
  | some cacheTime, some files =>
    files.all (fun f =>
      if (str ".yang").isSuffixOf f.1 ∨ (str ".sid").isSuffixOf f.1 then
        !decide (f.2 > cacheTime)
      else true)
  | _, _ => false

inductive LoadOutcome
  | fromCache
  | rebuilt
  deriving DecidableEq, Repr

/-- The cache decision of `loadYangInputs`: try the cache when enabled
and valid; `deserializeData` throws on a version other than
`CACHE_VERSION` (and `loadFromCache` throws on an unreadable file), and
the `catch` falls back to a rebuild. -/
def loadYangInputsOutcome (e : CacheEnv) : LoadOutcome :=
  if ¬e.noCache ∧ isCacheValid e then
    match e.cacheVersion with
    | some v => if v = CACHE_VERSION then .fromCache else .rebuilt
    | none => .rebuilt
  else .rebuilt

theorem isCacheValid_iff (e : CacheEnv) :
    isCacheValid e = true ↔
      ∃ ct files, e.cacheMTime = some ct ∧ e.dirListing = some files ∧
        ∀ f ∈ files,
          ((str ".yang").isSuffixOf f.1 ∨ (str ".sid").isSuffixOf f.1) → f.2 ≤ ct := by
  unfold isCacheValid
  cases hc : e.cacheMTime with
  | none => simp
  | some ct =>
    cases hd : e.dirListing with
    | none => simp
    | some files =>
      simp only [List.all_eq_true, Option.some.injEq]
      constructor
      · intro h
        refine ⟨ct, files, rfl, rfl, ?_⟩
        intro f hf hrel
        have := h f hf
        rw [if_pos hrel] at this
        simpa using this
      · rintro ⟨ct', files', hct, hfl, h⟩
        cases hct
        cases hfl
        intro f hf
        by_cases hrel : (str ".yang").isSuffixOf f.1 ∨ (str ".sid").isSuffixOf f.1
        · rw [if_pos hrel]
          simpa using h f hf hrel
        · rw [if_neg hrel]

/-- The claim's strict reading of the freshness condition: the cache is
used only when its modification time strictly exceeds that of every
`.yang`/`.sid` file (and the version is 1). -/
def cacheStrictClaim (e : CacheEnv) : Prop :=
  loadYangInputsOutcome e = .fromCache →
    ∃ ct, e.cacheMTime = some ct ∧
      (∀ f ∈ e.dirListing.getD [],
        ((str ".yang").isSuffixOf f.1 ∨ (str ".sid").isSuffixOf f.1) → f.2 < ct) ∧
      e.cacheVersion = some 1

/-- An environment where the cache and a `.yang` source carry the same
modification time. -/
def envC5 : CacheEnv :=
  { cacheMTime := some 5, dirListing := some [(str "a.yang", 5)],
    cacheVersion := some 1, noCache := false }

/-- C5 counterexample: with equal modification times the loader still
uses the cache, so the claim's "strictly exceeds" condition is violated:
the cache is also used when a source file is exactly as new as the
cache. -/
theorem claim_C5_counterexample : ¬cacheStrictClaim envC5 := by
  intro h
  obtain ⟨ct, hct, hall, -⟩ := h (by decide)
  obtain rfl : (5 : Int) = ct := Option.some.injEq .. ▸ hct ▸ rfl
  have h5 := hall (str "a.yang", 5) (by decide) (by decide)
  omega

/-- C5 (amended): the loader takes the cache path exactly when caching
is enabled, the cache file stats, no `.yang`/`.sid` file in the
directory is strictly newer (equality allowed — "at least as new", not
"strictly exceeds"), and the parsed version equals 1; and whenever the
version is unreadable or differs from 1 the loader silently rebuilds —
no error reaches the caller. -/
theorem claim_C5_cache_conditions :
    (∀ e : CacheEnv,
      loadYangInputsOutcome e = .fromCache ↔
        (e.noCache = false ∧
         ∃ ct files, e.cacheMTime = some ct ∧ e.dirListing = some files ∧
           (∀ f ∈ files,
             ((str ".yang").isSuffixOf f.1 ∨ (str ".sid").isSuffixOf f.1) → f.2 ≤ ct) ∧
           e.cacheVersion = some 1)) ∧
    (∀ e : CacheEnv, e.cacheVersion ≠ some 1 → loadYangInputsOutcome e = .rebuilt) := by
  constructor
  · intro e
    unfold loadYangInputsOutcome
    constructor
    · intro h
      split at h
      · rename_i hcond
        obtain ⟨hnc, hval⟩ := hcond
        obtain ⟨ct, files, hct, hfl, hall⟩ := (isCacheValid_iff e).mp hval
        split at h
        · rename_i v hv
          split at h
          · rename_i hv1
            subst hv1
            exact ⟨by simpa using hnc, ct, files, hct, hfl, hall, by rw [hv]; rfl⟩
          · exact absurd h (by simp)
        · exact absurd h (by simp)
      · exact absurd h (by simp)
    · rintro ⟨hnc, ct, files, hct, hfl, hall, hv⟩
      rw [if_pos ⟨by simp [hnc], (isCacheValid_iff e).mpr ⟨ct, files, hct, hfl, hall⟩⟩]
      rw [hv]
      rfl
  · intro e hv
    unfold loadYangInputsOutcome
    split
    · split
      · rename_i v hveq
        have hne : ¬v = CACHE_VERSION := by
          intro h1
          exact hv (by rw [hveq, h1]; rfl)
        rw [if_neg hne]
      · rfl
    · rfl

theorem claim_C5_cache_conditions_witness :
    loadYangInputsOutcome
      { cacheMTime := some 5, dirListing := some [(str "a.yang", 4)],
        cacheVersion := some 2, noCache := false } = LoadOutcome.rebuilt :=
  claim_C5_cache_conditions.2 _ (by decide)

/-! ## Claim C6: cache persistence (input-loader `saveToCache`) -/

/-- Enum bijection carried by a `TypeInfo`. -/
structure EnumInfo where
  nameToValue : List (Str × Int)
  valueToName : List (Int × Str)
  deriving DecidableEq, Repr

/-- Type record of the type table; only the fields the verified claims
inspect are modelled, the rest of the JS object ride along untouched. -/
structure TypeInfo where
  type : Str
  enumInfo : Option EnumInfo := none
  original : Option Str := none
  deriving DecidableEq, Repr

/-- The merged type table (input-loader Step 5). -/
structure TypeTable where
  types : List (Str × TypeInfo) := []
  identities : List (Str × List Str) := []
  typedefs : List (Str × TypeInfo) := []
  choiceNames : List Str := []
  caseNames : List Str := []
  nodeOrders : List (Str × Int) := []
  deriving DecidableEq, Repr

/-- `serializeData` output: in this embedding Maps are already
association lists, so the array spreads are the identity; `timestamp` is
`Date.now()` passed in by the caller. -/
structure CacheData where
  version : Int
  timestamp : Int
  sidTree : SidTree
  typeTable : TypeTable
  deriving DecidableEq, Repr

def serializeData (now : Int) (sidTree : SidTree) (typeTable : TypeTable) : CacheData :=
  { version := CACHE_VERSION, timestamp := now,
    sidTree := sidTree, typeTable := typeTable }

/-- A file-system operation performed while persisting the cache. -/
inductive FsOp
  | write (path : Str) (data : CacheData)
  | rename (src dst : Str)
  deriving DecidableEq, Repr

/-- The file-system operations of `saveToCache`: a single
`fs.promises.writeFile(cacheFile, JSON.stringify(data))` — nothing
else touches the file system. -/
def saveToCacheOps (cacheFile : Str) (now : Int) (sidTree : SidTree)
    (typeTable : TypeTable) : List FsOp :=
  [FsOp.write cacheFile (serializeData now sidTree typeTable)]

/-- The claim's atomic-write protocol: write the serialized data to a
temporary path, then rename it onto the cache file. -/
def atomicWriteClaim (cacheFile : Str) (ops : List FsOp) : Prop :=
  ∃ tmp d, tmp ≠ cacheFile ∧ ops = [FsOp.write tmp d, FsOp.rename tmp cacheFile]

/-- C6 counterexample: `saveToCache` performs one direct write to the
cache file — no temporary file and no rename — so the claimed
write-then-rename protocol does not hold. -/
theorem claim_C6_counterexample :
    ¬atomicWriteClaim (str "yang.cache.json")
      (saveToCacheOps (str "yang.cache.json") 0 {} {}) := by
  rintro ⟨tmp, d, hne, heq⟩
  simp [saveToCacheOps] at heq

/-- C6 (amended): the cache is written in place — `saveToCache` performs
exactly one `writeFile` of the serialized tables directly to the cache
file path, and never a rename; there is no temporary file, so the write
is not atomic and a concurrent reader may observe a partial file. -/
theorem claim_C6_cache_write_direct :
    ∀ (cacheFile : Str) (now : Int) (sidTree : SidTree) (typeTable : TypeTable),
      saveToCacheOps cacheFile now sidTree typeTable =
        [FsOp.write cacheFile (serializeData now sidTree typeTable)] ∧
      (∀ op ∈ saveToCacheOps cacheFile now sidTree typeTable,
        ∀ src dst, op ≠ FsOp.rename src dst) := by
  intro cacheFile now sidTree typeTable
  refine ⟨rfl, ?_⟩
  intro op hop src dst
  simp only [saveToCacheOps, List.mem_singleton] at hop
  subst hop
  intro h
  exact FsOp.noConfusion h

theorem claim_C6_cache_write_direct_witness :
    saveToCacheOps (str "yang.cache.json") 7 {} {} =
      [FsOp.write (str "yang.cache.json") (serializeData 7 {} {})] ∧
    FsOp.write (str "yang.cache.json") (serializeData 7 {} {}) ≠
      FsOp.rename (str "tmp") (str "yang.cache.json") :=
  ⟨(claim_C6_cache_write_direct (str "yang.cache.json") 7 {} {}).1,
   (claim_C6_cache_write_direct (str "yang.cache.json") 7 {} {}).2
     (FsOp.write (str "yang.cache.json") (serializeData 7 {} {}))
     (List.mem_singleton.mpr rfl) (str "tmp") (str "yang.cache.json")⟩

/-! ## Claim C7: identity resolution accepts bare and qualified names -/

/-- C7: `processSidItem` registers an identity item in `identityToSid`
under both its bare name and its full identifier and in `sidToIdentity`
under its bare name; `resolveIdentityToSid` strips one `module:` prefix
before lookup, so the `m:n` form resolves exactly like the bare `n`
form; `resolveSidToIdentity` returns the bare name for a registered
identity SID. -/
theorem claim_C7_identity_resolution :
    (∀ (tree : SidTree) (sid : Int) (ident : Str),
      alGet (processSidItem tree ⟨sid, str "identity", ident⟩).identityToSid
        (segBare ident) = some sid ∧
      alGet (processSidItem tree ⟨sid, str "identity", ident⟩).identityToSid
        ident = some sid ∧
      alGet (processSidItem tree ⟨sid, str "identity", ident⟩).sidToIdentity
        sid = some (segBare ident)) ∧
    (∀ (tree : SidTree) (m n ident : Str),
      ':' ∈ ident → splitOnChar ':' ident = [m, n] → ':' ∉ n →
      resolveIdentityToSid ident tree = resolveIdentityToSid n tree) ∧
    (∀ (tree : SidTree) (sid : Int) (ident : Str), segBare ident ≠ [] →
      resolveSidToIdentity sid (processSidItem tree ⟨sid, str "identity", ident⟩) =
        some (segBare ident)) := by
  have hfields : ∀ (tree : SidTree) (sid : Int) (ident : Str),
      (processSidItem tree ⟨sid, str "identity", ident⟩).identityToSid =
        alSet (alSet tree.identityToSid (segBare ident) sid) ident sid ∧
      (processSidItem tree ⟨sid, str "identity", ident⟩).sidToIdentity =
        alSet tree.sidToIdentity sid (segBare ident) := by
    intro tree sid ident
    unfold processSidItem
    rw [(psiPrefixedStep_fields _ _).2.2.2.1, (psiPrefixedStep_fields _ _).2.2.2.2.1,
      (psiPathStep_fields _ _).2.2.2.2.2.2.1, (psiPathStep_fields _ _).2.2.2.2.2.2.2.1,
      (psiLeafStep_fields _ _).2.2.2.2.2.2.1, (psiLeafStep_fields _ _).2.2.2.2.2.2.2.1]
    unfold psiIdentityStep
    rw [if_pos (show psiNs ⟨sid, str "identity", ident⟩ = str "identity" from rfl)]
    exact ⟨rfl, rfl⟩
  refine ⟨?_, ?_, ?_⟩
  · intro tree sid ident
    obtain ⟨h1, h2⟩ := hfields tree sid ident
    rw [h1, h2]
    refine ⟨?_, alGet_alSet_self _ _ _, alGet_alSet_self _ _ _⟩
    by_cases hb : ident = segBare ident
    · rw [← hb]
      exact alGet_alSet_self _ _ _
    · rw [alGet_alSet_ne _ ident (segBare ident) _ (fun h => hb h)]
      exact alGet_alSet_self _ _ _
  · intro tree m n ident hin hsplit hnn
    unfold resolveIdentityToSid
    have h1 : segBare ident = n := by
      unfold segBare
      rw [if_pos hin, hsplit]
      rfl
    have h2 : segBare n = n := segBare_nocolon hnn
    rw [h1, h2]
  · intro tree sid ident hne
    unfold resolveSidToIdentity
    rw [(hfields tree sid ident).2, alGet_alSet_self]
    simp [jsStrOrNull, hne]

theorem claim_C7_identity_resolution_witness :
    alGet (processSidItem {} ⟨10, str "identity", str "mod:eth"⟩).identityToSid
      (str "eth") = some 10 ∧
    alGet (processSidItem {} ⟨10, str "identity", str "mod:eth"⟩).identityToSid
      (str "mod:eth") = some 10 ∧
    resolveIdentityToSid (str "mod:eth")
        (processSidItem {} ⟨10, str "identity", str "mod:eth"⟩) =
      resolveIdentityToSid (str "eth")
        (processSidItem {} ⟨10, str "identity", str "mod:eth"⟩) ∧
    resolveSidToIdentity 10 (processSidItem {} ⟨10, str "identity", str "mod:eth"⟩) =
      some (str "eth") := by
  have hbare : segBare (str "mod:eth") = str "eth" := by decide
  obtain ⟨ha, hb, -⟩ := claim_C7_identity_resolution.1 {} 10 (str "mod:eth")
  refine ⟨by rw [← hbare]; exact ha, hb, ?_, ?_⟩
  · exact claim_C7_identity_resolution.2.1
      (processSidItem {} ⟨10, str "identity", str "mod:eth"⟩)
      (str "mod") (str "eth") (str "mod:eth") (by decide) (by decide) (by decide)
  · rw [← hbare]
    exact claim_C7_identity_resolution.2.2 {} 10 (str "mod:eth") (by decide)

/-! ## Claim C9: fetch sends a single query (fetch.js lines 79-111) -/

/-- One query entry extracted from an instance-identifier path: a bare
SID for a leaf, or `[listSid, key1, …]` for a list entry. -/
inductive SidEntry
  | single (sid : Int)
  | listEntry (sid : Int) (keys : List Str)
  deriving DecidableEq, Repr

/-- Outcome of the query-selection slice of `fetchCommand`: with no
entries the command throws before any transport is created; otherwise
`query = entries[0]`, with a console warning when several entries were
extracted. -/
inductive FetchQueryOutcome
  | failed (message : Str)
  | send (query : SidEntry) (warned : Bool)
  deriving DecidableEq, Repr

/-- The `entries.length` dispatch of `fetchCommand` (fetch.js lines
89-104). -/
def fetchQuerySelection (entries : List SidEntry) : FetchQueryOutcome :=
  match entries with
  | [] => .failed (str "No valid SIDs found in instance-identifier paths")
  | [e] => .send e false
  | e :: _ :: _ => .send e true

/-- The queries actually passed to `transport.sendiFetchRequest`. -/
def transmittedQueries (o : FetchQueryOutcome) : List SidEntry :=
  match o with
  | .failed _ => []
  | .send q _ => [q]

/-- C9: zero extracted entries fail before contacting the device; one
entry is sent as the query unchanged; with several entries a warning is
raised and only the first entry is transmitted — the transmitted list is
always `entries.take 1`. -/
theorem claim_C9_fetch_single_query :
    ∀ entries : List SidEntry,
      (entries = [] →
        fetchQuerySelection entries =
          .failed (str "No valid SIDs found in instance-identifier paths")) ∧
      (∀ e, entries = [e] → fetchQuerySelection entries = .send e false) ∧
      (∀ e e2 rest, entries = e :: e2 :: rest →
        fetchQuerySelection entries = .send e true) ∧
      transmittedQueries (fetchQuerySelection entries) = entries.take 1 := by
  intro entries
  refine ⟨fun h => by subst h; rfl,
    fun e h => by subst h; rfl,
    fun e e2 rest h => by subst h; rfl, ?_⟩
  match entries with
  | [] => rfl
  | [e] => rfl
  | e :: e2 :: rest => rfl

theorem claim_C9_fetch_single_query_witness :
    fetchQuerySelection [SidEntry.single 2033, SidEntry.listEntry 2034 [str "1"]] =
      FetchQueryOutcome.send (SidEntry.single 2033) true :=
  (claim_C9_fetch_single_query
    [SidEntry.single 2033, SidEntry.listEntry 2034 [str "1"]]).2.2.1
    (SidEntry.single 2033) (SidEntry.listEntry 2034 [str "1"]) [] rfl

/-! ## Claim C8: vendor-prefix typedef merging (input-loader Step 6) -/

/-- JS `new Map(entries)`: last write per key wins, first occurrence
fixes the position. -/
def jsMapOfList {α β : Type} [DecidableEq α] (l : List (α × β)) : List (α × β) :=
  l.foldl (fun m (e : α × β) => alSet m e.1 e.2) []

/-- The hard-coded vendor prefix list. -/
def vendorPfxList : List Str := [str "velocitysp-", str "mchp-"]

/-- One iteration of the inner `for (const prefix of vendorPrefixes)`
loop: when `name` starts with the prefix, the stripped base typedef
exists, and both carry enum bijections, union the bijections (the vendor
entries winning) into the base typedef and record the base name. -/
def mergeVendorStepPfx (name : Str) (td : TypeInfo)
    (acc : List (Str × TypeInfo) × List Str) (pfx : Str) :
    List (Str × TypeInfo) × List Str :=
  if pfx.isPrefixOf name then
    let baseName := name.drop pfx.length
    match alGet acc.1 baseName with
    | some baseTd =>
      match baseTd.enumInfo, td.enumInfo with
      | some be, some ve =>
        let mergedEnum : EnumInfo :=
          { nameToValue := jsMapOfList (be.nameToValue ++ ve.nameToValue)
            valueToName := jsMapOfList (be.valueToName ++ ve.valueToName) }
        (alSet acc.1 baseName
          { td with enumInfo := some mergedEnum, original := some baseName },
         acc.2 ++ [baseName])
      | _, _ => acc
    | none => acc
  else acc

/-- Visiting one key of the typedefs map: the `for...of` iterator yields
the live value at visit time, then both vendor prefixes are tried. -/
def mergeVendorStepName (acc : List (Str × TypeInfo) × List Str) (name : Str) :
    List (Str × TypeInfo) × List Str :=
  match alGet acc.1 name with
  | some td => vendorPfxList.foldl (mergeVendorStepPfx name td) acc
  | none => acc

/-- The typedef loop of Step 6 together with the `mergedTypedefs` set. -/
def mergeVendorFold (tt : TypeTable) : List (Str × TypeInfo) × List Str :=
  (tt.typedefs.map Prod.fst).foldl mergeVendorStepName (tt.typedefs, [])

/-- The `types` rewrite that follows: replace any entry whose truthy
`original` names a merged typedef with the merged type info (keeping its
`original`). -/
def rewriteTypeEntry (typedefs : List (Str × TypeInfo)) (mergedSet : List Str)
    (ti : TypeInfo) : TypeInfo :=
  match ti.original with
  | some orig =>
    if orig ≠ [] ∧ orig ∈ mergedSet then
      match alGet typedefs orig with
      | some mergedTd => { mergedTd with original := some orig }
      | none => ti
    else ti
  | none => ti

/-- input-loader Step 6: vendor-prefix typedef merging plus the
`types` rewrite. -/
def mergeVendorTypedefs (tt : TypeTable) : TypeTable :=
  let res := mergeVendorFold tt
  { tt with
    typedefs := res.1
    types := tt.types.map (fun e => (e.1, rewriteTypeEntry res.1 res.2 e.2)) }

theorem alGet_map_entry {α β : Type} [DecidableEq α] (g : β → β)
    (l : List (α × β)) (p : α) (ti : β) (h : alGet l p = some ti) :
    alGet (l.map (fun e => (e.1, g e.2))) p = some (g ti) := by
  induction l with
  | nil => simp [alGet] at h
  | cons hd tl ih =>
    obtain ⟨k, v⟩ := hd
    by_cases hk : k = p
    · subst hk
      simp only [alGet, if_pos rfl] at h
      cases h
      simp [alGet]
    · simp only [alGet, if_neg hk] at h
      simpa [alGet, hk] using ih h

theorem mergeVendorStepPfx_neutral (name : Str) (td : TypeInfo)
    (acc : List (Str × TypeInfo) × List Str) (pfx x : Str)
    (hx : ¬(pfx.isPrefixOf name = true ∧ name.drop pfx.length = x)) :
    alGet (mergeVendorStepPfx name td acc pfx).1 x = alGet acc.1 x := by
  simp only [mergeVendorStepPfx]
  repeat' split
  all_goals first
    | rfl
    | exact alGet_alSet_ne _ _ _ _ (fun h => hx ⟨by assumption, h⟩)

theorem mergeVendorStepPfx_mono (name : Str) (td : TypeInfo)
    (acc : List (Str × TypeInfo) × List Str) (pfx : Str) (y : Str)
    (hy : y ∈ acc.2) : y ∈ (mergeVendorStepPfx name td acc pfx).2 := by
  simp only [mergeVendorStepPfx]
  repeat' split
  all_goals first
    | exact hy
    | exact List.mem_append_left _ hy

theorem mergeVendorStepName_neutral
    (acc : List (Str × TypeInfo) × List Str) (name x : Str)
    (hx : ∀ pfx ∈ vendorPfxList,
      ¬(pfx.isPrefixOf name = true ∧ name.drop pfx.length = x)) :
    alGet (mergeVendorStepName acc name).1 x = alGet acc.1 x := by
  unfold mergeVendorStepName
  cases alGet acc.1 name with
  | none => rfl
  | some td =>
    show alGet ((vendorPfxList).foldl (mergeVendorStepPfx name td) acc).1 x = _
    rw [show vendorPfxList = [str "velocitysp-", str "mchp-"] from rfl]
    simp only [List.foldl_cons, List.foldl_nil]
    rw [mergeVendorStepPfx_neutral name td _ _ x
        (hx _ (List.mem_cons_of_mem _ (List.mem_cons_self _ _))),
      mergeVendorStepPfx_neutral name td _ _ x (hx _ (List.mem_cons_self _ _))]

theorem mergeVendorStepName_mono
    (acc : List (Str × TypeInfo) × List Str) (name y : Str)
    (hy : y ∈ acc.2) : y ∈ (mergeVendorStepName acc name).2 := by
  unfold mergeVendorStepName
  cases alGet acc.1 name with
  | none => exact hy
  | some td =>
    show y ∈ ((vendorPfxList).foldl (mergeVendorStepPfx name td) acc).2
    rw [show vendorPfxList = [str "velocitysp-", str "mchp-"] from rfl]
    simp only [List.foldl_cons, List.foldl_nil]
    exact mergeVendorStepPfx_mono _ _ _ _ _ (mergeVendorStepPfx_mono _ _ _ _ _ hy)

/-- The merged base typedef the code produces: the vendor typedef's
fields, with the enum bijections unioned (vendor entries winning on
duplicate keys) and `original` set to the base name. -/
def mergedVendorTd (vtd : TypeInfo) (be ve : EnumInfo) (bn : Str) : TypeInfo :=
  { vtd with
    enumInfo := some
      { nameToValue := jsMapOfList (be.nameToValue ++ ve.nameToValue)
        valueToName := jsMapOfList (be.valueToName ++ ve.valueToName) }
    original := some bn }

theorem mergeVendorStepName_merges
    (acc : List (Str × TypeInfo) × List Str) (vn bn pfx : Str)
    (vtd btd : TypeInfo) (be ve : EnumInfo)
    (hpfx : pfx ∈ vendorPfxList)
    (hpre : pfx.isPrefixOf vn = true)
    (hdrop : vn.drop pfx.length = bn)
    (huniq : ∀ pfx' ∈ vendorPfxList, pfx'.isPrefixOf vn = true → pfx' = pfx)
    (hv : alGet acc.1 vn = some vtd)
    (hb : alGet acc.1 bn = some btd)
    (hbe : btd.enumInfo = some be)
    (hve : vtd.enumInfo = some ve) :
    alGet (mergeVendorStepName acc vn).1 bn = some (mergedVendorTd vtd be ve bn) ∧
    bn ∈ (mergeVendorStepName acc vn).2 := by
  have hne12 : (str "velocitysp-") ≠ (str "mchp-") := by decide
  have hstep : ∀ (acc' : List (Str × TypeInfo) × List Str) (p : Str),
      p.isPrefixOf vn = true → vn.drop p.length = bn →
      alGet acc'.1 bn = some btd →
      mergeVendorStepPfx vn vtd acc' p =
        (alSet acc'.1 bn (mergedVendorTd vtd be ve bn), acc'.2 ++ [bn]) := by
    intro acc' p hp hd hbacc
    simp only [mergeVendorStepPfx]
    rw [if_pos hp]
    rw [hd, hbacc]
    simp only [hbe, hve]
    rfl
  have hskip : ∀ (acc' : List (Str × TypeInfo) × List Str) (p : Str),
      ¬p.isPrefixOf vn = true →
      mergeVendorStepPfx vn vtd acc' p = acc' := by
    intro acc' p hp
    simp only [mergeVendorStepPfx]
    rw [if_neg hp]
  unfold mergeVendorStepName
  rw [hv]
  show alGet ((vendorPfxList).foldl (mergeVendorStepPfx vn vtd) acc).1 bn =
      some (mergedVendorTd vtd be ve bn) ∧
    bn ∈ ((vendorPfxList).foldl (mergeVendorStepPfx vn vtd) acc).2
  rw [show vendorPfxList = [str "velocitysp-", str "mchp-"] from rfl]
  simp only [List.foldl_cons, List.foldl_nil]
  rcases (by simpa [vendorPfxList] using hpfx :
      pfx = str "velocitysp-" ∨ pfx = str "mchp-") with hcase | hcase
  · subst hcase
    have hnot2 : ¬(str "mchp-").isPrefixOf vn = true := by
      intro h2
      exact hne12 ((huniq _ (by simp [vendorPfxList]) h2).symm)
    rw [hstep acc _ hpre hdrop hb, hskip _ _ hnot2]
    exact ⟨alGet_alSet_self _ _ _, List.mem_append_right _ (List.mem_singleton.mpr rfl)⟩
  · subst hcase
    have hnot1 : ¬(str "velocitysp-").isPrefixOf vn = true := by
      intro h1
      exact hne12 (huniq _ (by simp [vendorPfxList]) h1)
    rw [hskip acc _ hnot1, hstep acc _ hpre hdrop hb]
    exact ⟨alGet_alSet_self _ _ _, List.mem_append_right _ (List.mem_singleton.mpr rfl)⟩

theorem mergeVendorFoldL_neutral (l : List Str)
    (acc : List (Str × TypeInfo) × List Str) (x : Str)
    (hx : ∀ name ∈ l, ∀ pfx ∈ vendorPfxList,
      ¬(pfx.isPrefixOf name = true ∧ name.drop pfx.length = x)) :
    alGet (l.foldl mergeVendorStepName acc).1 x = alGet acc.1 x := by
  induction l generalizing acc with
  | nil => rfl
  | cons hd tl ih =>
    simp only [List.foldl_cons]
    rw [ih _ (fun n hn => hx n (List.mem_cons_of_mem _ hn)),
      mergeVendorStepName_neutral acc hd x (hx hd (List.mem_cons_self _ _))]

theorem mergeVendorFoldL_mono (l : List Str)
    (acc : List (Str × TypeInfo) × List Str) (y : Str) (hy : y ∈ acc.2) :
    y ∈ (l.foldl mergeVendorStepName acc).2 := by
  induction l generalizing acc with
  | nil => exact hy
  | cons hd tl ih =>
    exact ih _ (mergeVendorStepName_mono _ _ _ hy)

/-- C8 (amended): when exactly one vendor-prefixed typedef `vn = pfx ++ bn`
targets the enumeration base typedef `bn` (and no typedef targets `vn`),
Step 6 replaces the base typedef with the vendor typedef whose enum
bijections are the union of base and vendor entries (vendor winning on
duplicates) and whose `original` records the base name, records `bn` as
merged, and rewrites every `types` entry whose `original` is `bn` to that
merged typedef. The spec's unconditional claim that vendor extensions are
merged "into" the base typedef (base surviving, several vendors
accumulating) is corrected: with two vendor typedefs on one base the
later vendor's merge starts again from the vendor typedef and drops the
earlier vendor's entries, as `claim_C8_counterexample` shows. -/
theorem claim_C8_vendor_typedef_merge
    (tt : TypeTable) (pfx vn bn : Str) (vtd btd : TypeInfo) (be ve : EnumInfo)
    (hnd : (tt.typedefs.map Prod.fst).Nodup)
    (hpfx : pfx ∈ vendorPfxList)
    (hpre : pfx.isPrefixOf vn = true)
    (hdrop : vn.drop pfx.length = bn)
    (hbn : bn ≠ [])
    (huniq : ∀ pfx' ∈ vendorPfxList, pfx'.isPrefixOf vn = true → pfx' = pfx)
    (hv : alGet tt.typedefs vn = some vtd)
    (hb : alGet tt.typedefs bn = some btd)
    (hbe : btd.enumInfo = some be)
    (hve : vtd.enumInfo = some ve)
    (honly : ∀ name ∈ tt.typedefs.map Prod.fst, name ≠ vn →
      ∀ pfx' ∈ vendorPfxList,
        ¬(pfx'.isPrefixOf name = true ∧ name.drop pfx'.length = bn))
    (hnovn : ∀ name ∈ tt.typedefs.map Prod.fst,
      ∀ pfx' ∈ vendorPfxList,
        ¬(pfx'.isPrefixOf name = true ∧ name.drop pfx'.length = vn)) :
    alGet (mergeVendorTypedefs tt).typedefs bn = some (mergedVendorTd vtd be ve bn) ∧
    bn ∈ (mergeVendorFold tt).2 ∧
    ∀ p ti, alGet tt.types p = some ti → ti.original = some bn →
      alGet (mergeVendorTypedefs tt).types p = some (mergedVendorTd vtd be ve bn) := by
  have hvn_mem : vn ∈ tt.typedefs.map Prod.fst :=
    List.mem_map_of_mem Prod.fst (alGet_mem hv)
  obtain ⟨s, t, hsplit⟩ := List.append_of_mem hvn_mem
  have hnd' := hnd
  rw [hsplit, List.nodup_append] at hnd'
  obtain ⟨hndS, hndT, hdisj⟩ := hnd'
  have hvn_not_s : vn ∉ s := fun hvs => (hdisj hvs) (List.mem_cons_self _ _)
  have hvn_not_t : vn ∉ t := (List.nodup_cons.mp hndT).1
  have hmemS : ∀ n ∈ s, n ∈ tt.typedefs.map Prod.fst := by
    intro n hn
    rw [hsplit]
    exact List.mem_append_left _ hn
  have hmemT : ∀ n ∈ t, n ∈ tt.typedefs.map Prod.fst := by
    intro n hn
    rw [hsplit]
    exact List.mem_append_right _ (List.mem_cons_of_mem _ hn)
  have hfold :
      mergeVendorFold tt =
        t.foldl mergeVendorStepName
          (mergeVendorStepName
            (s.foldl mergeVendorStepName (tt.typedefs, [])) vn) := by
    unfold mergeVendorFold
    rw [hsplit, List.foldl_append, List.foldl_cons]
  have hvS : alGet (s.foldl mergeVendorStepName (tt.typedefs, ([] : List Str))).1 vn
      = some vtd := by
    rw [mergeVendorFoldL_neutral s _ vn (fun n hn => hnovn n (hmemS n hn))]
    exact hv
  have hbS : alGet (s.foldl mergeVendorStepName (tt.typedefs, ([] : List Str))).1 bn
      = some btd := by
    rw [mergeVendorFoldL_neutral s _ bn
      (fun n hn => honly n (hmemS n hn) (fun he => hvn_not_s (he ▸ hn)))]
    exact hb
  have hmid := mergeVendorStepName_merges _ vn bn pfx vtd btd be ve hpfx hpre hdrop
    huniq hvS hbS hbe hve
  have hfinal1 : alGet (mergeVendorFold tt).1 bn = some (mergedVendorTd vtd be ve bn) := by
    rw [hfold, mergeVendorFoldL_neutral t _ bn
      (fun n hn => honly n (hmemT n hn) (fun he => hvn_not_t (he ▸ hn)))]
    exact hmid.1
  have hfinal2 : bn ∈ (mergeVendorFold tt).2 := by
    rw [hfold]
    exact mergeVendorFoldL_mono t _ bn hmid.2
  refine ⟨?_, hfinal2, ?_⟩
  · show alGet (mergeVendorTypedefs tt).typedefs bn = _
    simp only [mergeVendorTypedefs]
    exact hfinal1
  · intro p ti hget horig
    simp only [mergeVendorTypedefs]
    rw [alGet_map_entry
      (rewriteTypeEntry (mergeVendorFold tt).1 (mergeVendorFold tt).2) tt.types p ti hget]
    simp only [rewriteTypeEntry, horig]
    rw [if_pos ⟨hbn, hfinal2⟩, hfinal1]
    simp [mergedVendorTd]

def enC8base : EnumInfo :=
  { nameToValue := [(str "a", 1)], valueToName := [(1, str "a")] }

def enC8velo : EnumInfo :=
  { nameToValue := [(str "a", 2)], valueToName := [(2, str "a")] }

def enC8mchp : EnumInfo :=
  { nameToValue := [(str "a", 3)], valueToName := [(3, str "a")] }

def tdC8base : TypeInfo :=
  { type := (str "enumeration"), enumInfo := some enC8base }

def tdC8velo : TypeInfo :=
  { type := (str "enumeration"), enumInfo := some enC8velo }

def tdC8mchp : TypeInfo :=
  { type := (str "enumeration"), enumInfo := some enC8mchp }

def tdC8leaf : TypeInfo :=
  { type := (str "enumeration"), original := some (str "x") }

/-- A typedef table with TWO vendor typedefs for the same base `x`:
`velocitysp-x` maps enum `a` to 2, `mchp-x` maps it to 3. -/
def ttC8 : TypeTable :=
  { typedefs := [(str "x", tdC8base), (str "velocitysp-x", tdC8velo),
      (str "mchp-x", tdC8mchp)]
    types := [(str "p/q", tdC8leaf)] }

/-- A single-vendor table: only `velocitysp-x` extends base `x`. -/
def ttC8w : TypeTable :=
  { typedefs := [(str "x", tdC8base), (str "velocitysp-x", tdC8velo)]
    types := [(str "p/q", tdC8leaf)] }

/-- C8 counterexample: with two vendor typedefs over base `x`, the final
base typedef maps enum name `a` to the LAST vendor's value 3, and the
first vendor's value 2 is gone — vendor extensions are not accumulated
into the base, but each merge restarts from the vendor typedef. -/
theorem claim_C8_counterexample :
    (((alGet (mergeVendorTypedefs ttC8).typedefs (str "x")).bind
        TypeInfo.enumInfo).bind
      (fun en => alGet en.nameToValue (str "a"))) = some 3 ∧
    (((alGet ttC8.typedefs (str "velocitysp-x")).bind TypeInfo.enumInfo).bind
      (fun en => alGet en.nameToValue (str "a"))) = some 2 ∧
    ((3 : Int) ≠ 2) := by decide

theorem claim_C8_vendor_typedef_merge_witness :
    alGet (mergeVendorTypedefs ttC8w).typedefs (str "x")
      = some (mergedVendorTd tdC8velo enC8base enC8velo (str "x")) ∧
    (str "x") ∈ (mergeVendorFold ttC8w).2 ∧
    alGet (mergeVendorTypedefs ttC8w).types (str "p/q")
      = some (mergedVendorTd tdC8velo enC8base enC8velo (str "x")) := by
  have h := claim_C8_vendor_typedef_merge ttC8w (str "velocitysp-")
    (str "velocitysp-x") (str "x") tdC8velo tdC8base enC8base enC8velo
    (by decide) (by decide) (by decide) (by decide) (by decide) (by decide)
    (by decide) (by decide) (by decide) (by decide) (by decide) (by decide)
  exact ⟨h.1, h.2.1, h.2.2 (str "p/q") tdC8leaf (by decide) (by decide)⟩
